import Mathlib

/-!
Verification of the zk-sca guest-side attestation pipeline against its
specification.  The Rust sources are shallowly embedded: bytes are `Nat`
values below 256, byte strings are `List Nat`, fallible functions return
`Except`.  SHA-256 (an external crate) is abstracted by two function
parameters, one hashing a 512-byte leaf block and one hashing a 64-byte
pair of digests; every theorem about the Merkle layer is proved for all
such functions.  Error diagnostics in the Rust code are `(ScaError, String)`
pairs; since no property below depends on the human-readable text, errors
are embedded as the `ScaError` kind alone.
-/

namespace ZkSca

set_option maxRecDepth 8000

/-! ## Byte-string helpers shared by the embedding -/

/-- Drop all trailing zero bytes, as `str::trim_end_matches('\0')` does on
the underlying UTF-8 bytes. -/
def dropTrailingZeros (l : List Nat) : List Nat :=
  (l.reverse.dropWhile (· == 0)).reverse

/-- Is `b` a UTF-8 continuation byte (`0x80..=0xBF`)? -/
def isContByte (b : Nat) : Bool := 128 ≤ b && b ≤ 191

/-- One step of the UTF-8 acceptance automaton used to model
`str::from_utf8`.  State 0 expects a character start; states 1-7 encode
which continuation-byte ranges are still owed; state 8 is the absorbing
reject state. -/
def utf8Next (st b : Nat) : Nat :=
  if st == 0 then
    if b ≤ 127 then 0
    else if 194 ≤ b && b ≤ 223 then 1
    else if b == 224 then 2
    else if 225 ≤ b && b ≤ 236 then 3
    else if b == 237 then 4
    else if 238 ≤ b && b ≤ 239 then 3
    else if b == 240 then 5
    else if 241 ≤ b && b ≤ 243 then 6
    else if b == 244 then 7
    else 8
  else if st == 1 then (if isContByte b then 0 else 8)
  else if st == 2 then (if 160 ≤ b && b ≤ 191 then 1 else 8)
  else if st == 3 then (if isContByte b then 1 else 8)
  else if st == 4 then (if 128 ≤ b && b ≤ 159 then 1 else 8)
  else if st == 5 then (if 144 ≤ b && b ≤ 191 then 3 else 8)
  else if st == 6 then (if isContByte b then 3 else 8)
  else if st == 7 then (if 128 ≤ b && b ≤ 143 then 3 else 8)
  else 8

/-- UTF-8 validity of a byte string (the standard table behind
`str::from_utf8`, as a deterministic automaton). -/
def validUtf8 (l : List Nat) : Bool := l.foldl utf8Next 0 == 0

/-- ASCII decimal digit test. -/
def isDigitByte (b : Nat) : Bool := 48 ≤ b && b ≤ 57

/-- `str::parse::<usize>()` on the bytes of a string: an optional leading
plus sign, then one or more ASCII digits, with a 64-bit overflow check. -/
def rustParseUsize (s : List Nat) : Option Nat :=
  let digits := match s with
    | 43 :: rest => rest
    | _ => s
  if digits.isEmpty then none
  else if digits.all isDigitByte then
    let v := digits.foldl (fun acc b => acc * 10 + (b - 48)) 0
    if v < 2 ^ 64 then some v else none
  else none

/-- Bytes of an ASCII string literal. -/
def strBytes (s : String) : List Nat := s.data.map Char.toNat

/-! ## `tar.rs`: the TAR block model (C1 of the spec) -/

/-- `TarHeader` from `tar.rs`: decoded name and size of a 512-byte USTAR
header block.  The name is kept as the UTF-8 bytes of the decoded string. -/
structure TarHeader where
  name : List Nat
  size : Nat
deriving Repr, DecidableEq, Inhabited

/-- `parse_octal` from `tar.rs`: NUL and space bytes are skipped, every
other byte `b` contributes `b - b'0'` as a base-8 digit.  The Rust `u8`
subtraction wraps in release builds, hence the `% 256`. -/
def parse_octal (input : List Nat) : Nat :=
  input.foldl
    (fun result b =>
      if b == 0 || b == 32 then result else result * 8 + (b + 208) % 256)
    0

/-- The name field of a 512-byte header block: bytes `0..100`. -/
def nameField (block : List Nat) : List Nat := block.take 100

/-- The size field of a 512-byte header block: bytes `124..136`. -/
def sizeField (block : List Nat) : List Nat := (block.drop 124).take 12

/-- `parse_tar_header` from `tar.rs`: best-effort UTF-8 name (empty on
invalid UTF-8, trailing NULs trimmed) and octal size. -/
def parse_tar_header (block : List Nat) : TarHeader :=
  { name := if validUtf8 (nameField block) then dropTrailingZeros (nameField block) else []
    size := parse_octal (sizeField block) }

/-- `block_count` from `tar.rs`. -/
def block_count (size : Nat) : Nat := (size + 511) / 512

/-! ## C3: behaviour of `parse_octal` on invalid digits -/

/-- Reference value of an octal field when every contributing byte is a
genuine octal digit: NUL and space are skipped, the remaining digits are
read in base 8. -/
def octalValue (l : List Nat) : Nat :=
  (l.filter (fun b => !(b == 0 || b == 32))).foldl (fun acc b => acc * 8 + (b - 48)) 0

/-- A 512-byte block whose size field starts with the byte `'9'` (57),
which is not an octal digit. -/
def blockC3 : List Nat := List.replicate 124 0 ++ 57 :: List.replicate 387 0

/-! ## `guest-abi`: the data model crossing the zkVM boundary -/

/-- `MerklePathNode` from `guest-abi/src/merkle.rs`.  Hash digests are
abstracted to `Nat` (the output type of the abstracted SHA-256). -/
structure MerklePathNode where
  siblingHash : Nat
  isLeftChild : Bool
deriving Repr, DecidableEq, Inhabited

/-- `MerkleLeaf` from `guest-abi/src/merkle.rs`: a 512-byte block plus its
leaf-to-root authentication path. -/
structure MerkleLeaf where
  data : List Nat
  path : List MerklePathNode
deriving Repr, DecidableEq, Inhabited

/-- `PackageManager` from `types/src/package_manager.rs`. -/
inductive PackageManager where
  | Cargo
deriving Repr, DecidableEq, Inhabited

/-- `semver::Version`, reduced to the numeric triple; pre-release and build
metadata play no role in any claim. -/
structure Version where
  major : Nat
  minor : Nat
  patch : Nat
deriving Repr, DecidableEq, Inhabited

/-- Strict semver ordering on numeric triples (lexicographic). -/
def versionLt (a b : Version) : Bool :=
  a.major < b.major ||
    (a.major == b.major &&
      (a.minor < b.minor || (a.minor == b.minor && a.patch < b.patch)))

/-- `PackageManagerSpec` from `types/src/package_manager.rs`. -/
structure PackageManagerSpec where
  manager : PackageManager
  version : Version
deriving Repr, DecidableEq, Inhabited

/-- `PartialMerkleArchive` from `guest-abi/src/merkle.rs`. -/
structure PartialMerkleArchive where
  resolvedWith : PackageManagerSpec
  rootHash : Nat
  countLeaf : MerkleLeaf
  headerLeaves : List MerkleLeaf
  dependencyFileLeaves : List MerkleLeaf
  dependencyFileHeaderIndices : List Nat
deriving Repr, Inhabited

/-- `ScaError` from `guest-abi/src/error.rs`. -/
inductive ScaError where
  | DisallowedDependency
  | DisallowedVersion
  | DisallowedLicense
  | UnsupportedLockfileVersion
  | InvalidMerkleArchive
  | UndeclaredLockfileDependency
  | MissingLockfile
  | ManifestLockMismatch
  | InvalidManifestEncoding
  | ManifestParseError
  | InvalidLockfileEncoding
  | LockfileParseError
  | RedundantLockfile
  | InvalidWorkspaceCount
  | UnsupportedPackageManager
  | InconsistentPackageManager
deriving Repr, DecidableEq, Inhabited

/-- The guest result type `MRes<T> = Result<T, (ScaError, String)>`, with
the diagnostic string omitted (no claim depends on it). -/
abbrev MRes (α : Type) := Except ScaError α

deriving instance DecidableEq for Except

/-! ## `merkle_verifier.rs`: the guest-side Merkle verifier

All definitions are parameterised by the two uses of SHA-256 in the code:
`hB` hashes a 512-byte leaf block, `hP` hashes the 64-byte concatenation of
two digests. -/

/-- `ValidatedFile` from `merkle_verifier.rs`. -/
structure ValidatedFile where
  header : TarHeader
  bytes : List Nat
deriving Repr, DecidableEq, Inhabited

/-- `ValidPartialArchive` from `merkle_verifier.rs`. -/
structure ValidPartialArchive where
  headers : List TarHeader
  files : List ValidatedFile
deriving Repr, DecidableEq, Inhabited

/-- `verify_merkle_proof`: recompute the root from a leaf block and its
path and compare with the archive root. -/
def verify_merkle_proof (hB : List Nat → Nat) (hP : Nat → Nat → Nat)
    (data : List Nat) (path : List MerklePathNode) (rootHash : Nat) : Bool :=
  (path.foldl
    (fun cur node =>
      if node.isLeftChild then hP cur node.siblingHash else hP node.siblingHash cur)
    (hB data)) == rootHash

/-- The enumerated fold inside `reconstruct_leaf_index`: `bit` is the
current depth, `acc` the bits assembled so far. -/
def reconstructGo (bit acc : Nat) : List MerklePathNode → Nat
  | [] => acc
  | node :: rest =>
    reconstructGo (bit + 1) (acc ||| ((if node.isLeftChild then 0 else 1) <<< bit)) rest

/-- `reconstruct_leaf_index`: rebuild the zero-based leaf index from the
left/right flags of a path, LSB first. -/
def reconstruct_leaf_index (path : List MerklePathNode) : Nat :=
  reconstructGo 0 0 path

/-- `Verifier::ensure_count_leaf_is_authentic_and_return_count`. -/
def ensure_count_leaf_is_authentic_and_return_count
    (hB : List Nat → Nat) (hP : Nat → Nat → Nat) (a : PartialMerkleArchive) : MRes Nat :=
  if verify_merkle_proof hB hP a.countLeaf.data a.countLeaf.path a.rootHash then
    if validUtf8 a.countLeaf.data then
      match rustParseUsize (dropTrailingZeros a.countLeaf.data) with
      | some n => .ok n
      | none => .error .InvalidMerkleArchive
    else .error .InvalidMerkleArchive
  else .error .InvalidMerkleArchive

/-- The header-leaf loop: authenticate each leaf and parse it. -/
def parseHeaderLeaves (hB : List Nat → Nat) (hP : Nat → Nat → Nat) (root : Nat) :
    List MerkleLeaf → MRes (List TarHeader)
  | [] => .ok []
  | leaf :: rest =>
    if verify_merkle_proof hB hP leaf.data leaf.path root then
      match parseHeaderLeaves hB hP root rest with
      | .ok hdrs => .ok (parse_tar_header leaf.data :: hdrs)
      | .error e => .error e
    else .error .InvalidMerkleArchive

/-- `Verifier::ensure_header_leaves_are_authentic_and_parse`. -/
def ensure_header_leaves_are_authentic_and_parse
    (hB : List Nat → Nat) (hP : Nat → Nat → Nat) (a : PartialMerkleArchive)
    (expectedCount : Nat) : MRes (List TarHeader) :=
  if a.headerLeaves.length == expectedCount then
    parseHeaderLeaves hB hP a.rootHash a.headerLeaves
  else .error .InvalidMerkleArchive

/-- The seen-set loop of `ensure_header_names_are_unique`. -/
def namesUniqueGo (seen : List (List Nat)) : List TarHeader → MRes Unit
  | [] => .ok ()
  | hdr :: rest =>
    if seen.contains hdr.name then .error .InvalidMerkleArchive
    else namesUniqueGo (hdr.name :: seen) rest

/-- `Verifier::ensure_header_names_are_unique`. -/
def ensure_header_names_are_unique (headers : List TarHeader) : MRes Unit :=
  namesUniqueGo [] headers

/-- The inner loop of `ensure_dependency_blocks_are_authentic`: consume
`needed` leaves for one file, authenticating each and checking that its
reconstructed leaf index is the owning header's index plus the 1-based
offset; accumulate the raw bytes. -/
def consumeBlocks (hB : List Nat → Nat) (hP : Nat → Nat → Nat) (root : Nat)
    (headerLeafIndex : Nat) :
    Nat → Nat → List MerkleLeaf → List Nat → MRes (List Nat × List MerkleLeaf)
  | 0, _, stream, buf => .ok (buf, stream)
  | _ + 1, _, [], _ => .error .InvalidMerkleArchive
  | needed + 1, offset, leaf :: stream, buf =>
    if verify_merkle_proof hB hP leaf.data leaf.path root then
      if reconstruct_leaf_index leaf.path == headerLeafIndex + offset then
        consumeBlocks hB hP root headerLeafIndex needed (offset + 1) stream (buf ++ leaf.data)
      else .error .InvalidMerkleArchive
    else .error .InvalidMerkleArchive

/-- The outer loop of `ensure_dependency_blocks_are_authentic`: walk the
dependency header indices, consuming each file's blocks from the shared
stream of dependency leaves. -/
def depBlocksGo (hB : List Nat → Nat) (hP : Nat → Nat → Nat) (root : Nat)
    (headers : List TarHeader) (headerLeaves : List MerkleLeaf) :
    List Nat → List MerkleLeaf → MRes (List ValidatedFile × List MerkleLeaf)
  | [], stream => .ok ([], stream)
  | hdrIdx :: restIdxs, stream =>
    let hdr := headers.getD hdrIdx default
    let hLeaf := headerLeaves.getD hdrIdx default
    let needed := block_count hdr.size
    let headerLeafIndex := reconstruct_leaf_index hLeaf.path
    match consumeBlocks hB hP root headerLeafIndex needed 1 stream [] with
    | .error e => .error e
    | .ok (buf, stream') =>
      match depBlocksGo hB hP root headers headerLeaves restIdxs stream' with
      | .error e => .error e
      | .ok (files, stream'') =>
        .ok ({ header := hdr, bytes := buf.take hdr.size } :: files, stream'')

/-- `Verifier::ensure_dependency_blocks_are_authentic`. -/
def ensure_dependency_blocks_are_authentic
    (hB : List Nat → Nat) (hP : Nat → Nat → Nat) (a : PartialMerkleArchive)
    (headers : List TarHeader) : MRes (List ValidatedFile) :=
  if a.dependencyFileHeaderIndices.all (fun idx => idx < headers.length) then
    if a.dependencyFileLeaves.length ==
        (a.dependencyFileHeaderIndices.map
          (fun i => block_count (headers.getD i default).size)).sum then
      match depBlocksGo hB hP a.rootHash headers a.headerLeaves
          a.dependencyFileHeaderIndices a.dependencyFileLeaves with
      | .error e => .error e
      | .ok (files, []) => .ok files
      | .ok (_, _ :: _) => .error .InvalidMerkleArchive
    else .error .InvalidMerkleArchive
  else .error .InvalidMerkleArchive

/-- `validate_merkle_archive` from `merkle_verifier.rs`. -/
def validate_merkle_archive (hB : List Nat → Nat) (hP : Nat → Nat → Nat)
    (a : PartialMerkleArchive) : MRes ValidPartialArchive :=
  match ensure_count_leaf_is_authentic_and_return_count hB hP a with
  | .error e => .error e
  | .ok headerCount =>
    match ensure_header_leaves_are_authentic_and_parse hB hP a headerCount with
    | .error e => .error e
    | .ok headers =>
      match ensure_header_names_are_unique headers with
      | .error e => .error e
      | .ok _ =>
        match ensure_dependency_blocks_are_authentic hB hP a headers with
        | .error e => .error e
        | .ok files => .ok { headers := headers, files := files }

/-! ## `merkle_builder.rs`: the host-side partial-archive builder

The builder is embedded from the point where the external `flate2` and
`tar` crates have done their work: its input is the list of TAR entries,
each carrying its raw 512-byte header block and the file content bytes the
tar reader yields for it.  Gunzip failures and the USTAR format check are
host-side failure modes of the external crates and outside the claims. -/

/-- One TAR entry as the `tar` crate hands it to the builder. -/
structure TarEntry where
  header : List Nat
  content : List Nat
deriving Repr, DecidableEq, Inhabited

/-- Zero-pad a block to 512 bytes (`block[n..].fill(0)`). -/
def padTo512 (l : List Nat) : List Nat := l ++ List.replicate (512 - l.length) 0

/-- Split file content into 512-byte blocks, the last one zero-padded,
exactly as the builder's 512-byte read loop produces them. -/
def chunk512 (l : List Nat) : List (List Nat) :=
  if h : l = [] then [] else padTo512 (l.take 512) :: chunk512 (l.drop 512)
termination_by l.length
decreasing_by
  simp only [List.length_drop]
  have hnz : l.length ≠ 0 := fun hl => h (List.eq_nil_of_length_eq_zero hl)
  omega

/-- ASCII decimal digits of `n`, accumulator style. -/
def decimalBytesAux : Nat → List Nat → List Nat
  | 0, acc => acc
  | n + 1, acc => decimalBytesAux ((n + 1) / 10) (((n + 1) % 10 + 48) :: acc)
termination_by n _ => n
decreasing_by omega

/-- ASCII decimal representation of `n` (`usize::to_string`). -/
def decimalBytes (n : Nat) : List Nat :=
  if n = 0 then [48] else decimalBytesAux n []

/-- The count leaf's block: the decimal header count, NUL-padded to 512
bytes. -/
def countBlock (n : Nat) : List Nat := padTo512 (decimalBytes n)

/-- Truncate a raw TAR string field at its first NUL. -/
def truncAtNul (l : List Nat) : List Nat := l.takeWhile (· != 0)

/-- The path the `tar` crate reports for a USTAR header: the NUL-truncated
prefix field (bytes 345..500) joined with `/` to the NUL-truncated name
field when the prefix is non-empty. -/
def tarEntryPath (hdr : List Nat) : List Nat :=
  let name := truncAtNul (hdr.take 100)
  let pre := truncAtNul ((hdr.drop 345).take 155)
  if pre.isEmpty then name else pre ++ 47 :: name

/-- The builder's `want_dep` predicate for Cargo: the entry path equals or
ends in `Cargo.toml` / `Cargo.lock`. -/
def isDepHeader (hdr : List Nat) : Bool :=
  let p := tarEntryPath hdr
  p == strBytes "Cargo.toml" || (strBytes "/Cargo.toml").isSuffixOf p ||
    p == strBytes "Cargo.lock" || (strBytes "/Cargo.lock").isSuffixOf p

/-- The builder's scan state: raw 512-byte blocks collected so far, the
raw indices of header blocks, the raw indices of dependency data blocks,
and the header positions of dependency files. -/
structure ScanState where
  rawBlocks : List (List Nat)
  headerIndices : List Nat
  depRawIndices : List Nat
  depHeaderIndices : List Nat
deriving Repr, Inhabited

/-- Process one TAR entry: push the header block (recording its raw index
and, for dependency files, its header position), then push every 512-byte
content block (recording raw indices for dependency files). -/
def scanEntry (st : ScanState) (e : TarEntry) : ScanState :=
  let isDep := isDepHeader e.header
  let hdrRawIdx := st.rawBlocks.length
  let dataBlocks := chunk512 e.content
  { rawBlocks := st.rawBlocks ++ e.header :: dataBlocks
    headerIndices := st.headerIndices ++ [hdrRawIdx]
    depRawIndices :=
      st.depRawIndices ++
        if isDep then (List.range dataBlocks.length).map (fun k => hdrRawIdx + 1 + k) else []
    depHeaderIndices :=
      st.depHeaderIndices ++ if isDep then [st.headerIndices.length] else [] }

/-- The builder's entry loop. -/
def scanEntries : List TarEntry → ScanState → ScanState
  | [], st => st
  | e :: rest, st => scanEntries rest (scanEntry st e)

/-- One level up the Merkle tree: hash pairs of digests, duplicating the
final digest when the level has odd length (`chunks(2)` with
`pair.get(1).unwrap_or(&left)`). -/
def levelUp (hP : Nat → Nat → Nat) : List Nat → List Nat
  | [] => []
  | [a] => [hP a a]
  | a :: b :: rest => hP a b :: levelUp hP rest

/-- All tree layers, leaves first (`while layers.last().len() > 1`). -/
def buildLayers (hP : Nat → Nat → Nat) (l : List Nat) : List (List Nat) :=
  if l.length ≤ 1 then [l] else l :: buildLayers hP (levelUp hP l)
termination_by l.length
decreasing_by
  rename_i h
  have hlen : (levelUp hP l).length = (l.length + 1) / 2 := by
    clear h
    induction l using levelUp.induct hP with
    | case1 => simp [levelUp]
    | case2 _ => simp [levelUp]
    | case3 a b rest ih => simp only [levelUp, List.length_cons, ih]; omega
  simp only [hlen]; omega

/-- The root hash: the single digest of the last layer. -/
def merkleRoot (layers : List (List Nat)) : Nat := (layers.getLastD []).headD 0

/-- The builder's per-leaf proof walk: at each layer below the root record
whether the index is a left child and the sibling digest (the node itself
when it is the lone last node), then halve the index. -/
def pathFor (layers : List (List Nat)) (idx : Nat) : List MerklePathNode :=
  match layers with
  | [] => []
  | [_] => []
  | level :: rest =>
    { siblingHash :=
        if idx % 2 == 0 then level.getD (idx + 1) (level.getD idx 0) else level.getD (idx - 1) 0
      isLeftChild := idx % 2 == 0 } :: pathFor rest (idx / 2)

/-- `build_merkle_archive` from `merkle_builder.rs`, after gunzip and the
USTAR check: scan the entries, write the count into the leaf-0 block,
hash all leaves, build the layers, and emit the partial archive. -/
def build_merkle_archive (hB : List Nat → Nat) (hP : Nat → Nat → Nat)
    (resolvedWith : PackageManagerSpec) (entries : List TarEntry) : PartialMerkleArchive :=
  let st := scanEntries entries
    { rawBlocks := [List.replicate 512 0],
      headerIndices := [], depRawIndices := [], depHeaderIndices := [] }
  let rawBlocks := st.rawBlocks.set 0 (countBlock st.headerIndices.length)
  let leafHashes := rawBlocks.map hB
  let layers := buildLayers hP leafHashes
  { resolvedWith := resolvedWith
    rootHash := merkleRoot layers
    countLeaf := { data := countBlock st.headerIndices.length, path := pathFor layers 0 }
    headerLeaves :=
      st.headerIndices.map (fun i => { data := rawBlocks.getD i [], path := pathFor layers i })
    dependencyFileLeaves :=
      st.depRawIndices.map (fun i => { data := rawBlocks.getD i [], path := pathFor layers i })
    dependencyFileHeaderIndices := st.depHeaderIndices }

/-! ## A hand-crafted archive for the count-leaf position question (C10)

A malicious host can place the count leaf anywhere in the tree: the
verifier authenticates its path and parses its decimal content but never
inspects the logical index its path encodes.  The two-leaf tree below puts
a TAR header block at leaf 0 and the count block at leaf 1. -/

/-- A 512-byte USTAR header block with name `"a"` and size 0. -/
def c10HeaderBlock : List Nat := padTo512 [97]

/-- A 512-byte count block holding the decimal string `"1"`. -/
def c10CountBlock : List Nat := padTo512 [49]

/-- An adversarial partial archive over a two-leaf tree whose count leaf
is the leaf at logical index 1 (its path says: right child). -/
def c10Archive (hB : List Nat → Nat) (hP : Nat → Nat → Nat) : PartialMerkleArchive :=
  { resolvedWith := ⟨.Cargo, ⟨1, 51, 0⟩⟩
    rootHash := hP (hB c10HeaderBlock) (hB c10CountBlock)
    countLeaf := { data := c10CountBlock, path := [⟨hB c10HeaderBlock, false⟩] }
    headerLeaves := [{ data := c10HeaderBlock, path := [⟨hB c10CountBlock, true⟩] }]
    dependencyFileLeaves := []
    dependencyFileHeaderIndices := [] }

/-- The verifier's hash walk up a path, starting from a leaf digest. -/
def verifyFold (hP : Nat → Nat → Nat) (h : Nat) (path : List MerklePathNode) : Nat :=
  path.foldl
    (fun cur node =>
      if node.isLeftChild then hP cur node.siblingHash else hP node.siblingHash cur)
    h

/-- Recursive form of the reconstructed leaf index: bit 0 first. -/
def reconIdx : List MerklePathNode → Nat
  | [] => 0
  | node :: rest => (if node.isLeftChild then 0 else 1) + 2 * reconIdx rest

/-- The digest a single verification step computes from level `l` at leaf
position `i`: the hash of the pair containing position `i`. -/
def stepHash (hP : Nat → Nat → Nat) (l : List Nat) (i : Nat) : Nat :=
  if i % 2 == 0 then hP (l.getD i 0) (l.getD (i + 1) (l.getD i 0))
  else hP (l.getD (i - 1) 0) (l.getD i 0)

/-! ### Closed forms of the builder's scan, used by the round-trip proofs -/

/-- The blocks one entry contributes: its header block then its data. -/
def entryBlocks (e : TarEntry) : List (List Nat) := e.header :: chunk512 e.content

/-- All blocks after the count leaf, in archive order. -/
def bodyBlocks (entries : List TarEntry) : List (List Nat) := (entries.map entryBlocks).flatten

/-- Number of raw blocks an entry occupies. -/
def entryLen (e : TarEntry) : Nat := 1 + (chunk512 e.content).length

/-- Offset of entry `j`'s header block within `bodyBlocks`. -/
def relHdrIdx (entries : List TarEntry) (j : Nat) : Nat := ((entries.take j).map entryLen).sum

/-- Header raw indices of the entries, starting at raw index `base`. -/
def hdrIdxList (base : Nat) : List TarEntry → List Nat
  | [] => []
  | e :: rest => base :: hdrIdxList (base + entryLen e) rest

/-- Raw indices of the dependency data blocks, starting at raw index `base`. -/
def depRawList (base : Nat) : List TarEntry → List Nat
  | [] => []
  | e :: rest =>
    (if isDepHeader e.header then
      (List.range (chunk512 e.content).length).map (fun k => base + 1 + k)
    else []) ++ depRawList (base + entryLen e) rest

/-- Header positions of the dependency entries, starting at position `pos`. -/
def depHdrList (pos : Nat) : List TarEntry → List Nat
  | [] => []
  | e :: rest =>
    (if isDepHeader e.header then [pos] else []) ++ depHdrList (pos + 1) rest

/-- The dependency schedule: for every dependency entry its header
position, its header raw index, and the entry itself. -/
def depSched (pos base : Nat) : List TarEntry → List (Nat × Nat × TarEntry)
  | [] => []
  | e :: rest =>
    (if isDepHeader e.header then [(pos, base, e)] else []) ++
      depSched (pos + 1) (base + entryLen e) rest

/-- The authenticated leaf of the tree with raw blocks `raw` at index `i`. -/
def leafAt (hP : Nat → Nat → Nat) (hashes : List Nat) (raw : List (List Nat)) (i : Nat) :
    MerkleLeaf :=
  { data := raw.getD i [], path := pathFor (buildLayers hP hashes) i }

/-- The segment of dependency leaves one scheduled dependency entry
contributes: its data blocks in order, as authenticated leaves. -/
def segOf (hB : List Nat → Nat) (hP : Nat → Nat → Nat) (entries : List TarEntry)
    (t : Nat × Nat × TarEntry) : List MerkleLeaf :=
  (List.range (chunk512 t.2.2.content).length).map
    (fun k => leafAt hP ((countBlock entries.length :: bodyBlocks entries).map hB)
      (countBlock entries.length :: bodyBlocks entries) (t.2.1 + 1 + k))

/-- Number of decimal digits of `n` (0 for 0). -/
def numDigits : Nat → Nat
  | 0 => 0
  | n + 1 => numDigits ((n + 1) / 10) + 1
decreasing_by omega

/-- Decimal fold used by `usize` parsing, seeded with `v`. -/
def foldDec (v : Nat) (l : List Nat) : Nat := l.foldl (fun acc b => acc * 10 + (b - 48)) v

/-- A TAR entry with name "a" (size 0, no content), used twice to build an
archive with duplicate names. -/
def c1DupEntry : TarEntry := { header := padTo512 [97], content := [] }

/-- A degenerate leaf-hash function for concrete instantiations. -/
def hB0 : List Nat → Nat := fun _ => 0

/-- A degenerate pair-hash function for concrete instantiations. -/
def hP0 : Nat → Nat → Nat := fun _ _ => 0

/-- A dependency TAR entry: name "Cargo.toml", size field "1" (one octal
digit), one content byte. -/
def c2DepEntry : TarEntry :=
  { header := strBytes "Cargo.toml" ++ List.replicate 114 0 ++ 49 :: List.replicate 387 0
    content := [104] }

/-- Swap the elements at positions `p` and `q` of a list. -/
def listSwap {α : Type} [Inhabited α] (l : List α) (p q : Nat) : List α :=
  (l.set p (l.getD q default)).set q (l.getD p default)

/-- The logical leaf indices the dependency loop expects, in stream order:
for each dependency header, its reconstructed index plus 1-based offsets. -/
def expIdxList (headers : List TarHeader) (headerLeaves : List MerkleLeaf)
    (idxs : List Nat) : List Nat :=
  (idxs.map (fun p => (List.range (block_count (headers.getD p default).size)).map
    (fun k => reconstruct_leaf_index (headerLeaves.getD p default).path + (1 + k)))).flatten

/-! ## `cargo.rs`: the guest's Cargo metadata validator

The external `cargo_manifest`, `cargo_lock` and `semver` crates are not in
this repository: their parsers and the semver matching relation enter as
function parameters (`parseManifest`, `parseLock`, `parseReq`,
`reqMatches`), and the raw structures below carry exactly the fields the
in-repo code reads from those crates' output.  `HashMap`s (whose keys are
distinct at every use site) are embedded as association lists with
overwrite-on-insert; their unspecified iteration order is embedded as
insertion order. -/

/-- One value of a manifest dependency table, as `cargo_manifest` yields
it: the optional `package = ...` rename target and the requirement string
returned by `req()`. -/
structure ManifestDepRaw where
  package : Option (List Nat)
  reqStr : List Nat
deriving Repr, DecidableEq, Inhabited

/-- The `[workspace]` section as `cargo_manifest` yields it. -/
structure RawWorkspace where
  members : List (List Nat)
  exclude : Option (List (List Nat))
deriving Repr, DecidableEq, Inhabited

/-- The fields of `cargo_manifest::Manifest` the code reads; the three
dependency tables are `BTreeMap`s, embedded as lists in the crate's key
order. -/
structure RawManifest where
  dependencies : Option (List (List Nat × ManifestDepRaw))
  build_dependencies : Option (List (List Nat × ManifestDepRaw))
  dev_dependencies : Option (List (List Nat × ManifestDepRaw))
  workspace : Option RawWorkspace
deriving Repr, DecidableEq, Inhabited

/-- One `[[package]]` of a lockfile as `cargo_lock` yields it. -/
structure RawLockPkg where
  name : List Nat
  version : Version
  dependencies : List (List Nat)
  hasSource : Bool
deriving Repr, DecidableEq, Inhabited

/-- The fields of `cargo_lock::Lockfile` the code reads. -/
structure RawLock where
  resolveVersion : Nat
  packages : List RawLockPkg
deriving Repr, DecidableEq, Inhabited

/-- `ManifestInfo` from `cargo.rs`; `deps` is the map built by
`merge_deps`, keyed by canonical crate name, values are parsed
requirements (abstracted to `Nat`, the output type of `parseReq`). -/
structure ManifestInfo where
  path : List Nat
  deps : List (List Nat × Nat)
  has_workspace : Bool
  workspace_members : Option (List (List Nat))
  workspace_excludes : Option (List (List Nat))
deriving Repr, DecidableEq, Inhabited

/-- `LockInfo` from `cargo.rs`. -/
structure LockInfo where
  path : List Nat
  pkgs : List (List Nat × Version)
  deps : List (List Nat × List (List Nat))
  path_pkgs : List (List Nat)
deriving Repr, DecidableEq, Inhabited

/-- `ResolvedDependency` from `cargo.rs`. -/
structure ResolvedDependency where
  name : List Nat
  version : Version
  provenance : List Nat
deriving Repr, DecidableEq, Inhabited

/-- `HashMap::insert`: replace any earlier binding of the key. -/
def hmInsert {β : Type} (m : List (List Nat × β)) (k : List Nat) (v : β) :
    List (List Nat × β) :=
  m.filter (fun p => !(p.1 == k)) ++ [(k, v)]

/-- `HashMap::get`. -/
def hmGet {β : Type} (m : List (List Nat × β)) (k : List Nat) : Option β :=
  (m.find? (fun p => p.1 == k)).map (fun p => p.2)

/-- `HashSet::insert`. -/
def hsInsert (s : List (List Nat)) (k : List Nat) : List (List Nat) :=
  if s.contains k then s else s ++ [k]

/-- `str::trim_end_matches`: repeatedly strip the suffix `pat`. -/
def trimEndMatches (s pat : List Nat) : List Nat :=
  if h : pat ≠ [] ∧ pat.isSuffixOf s = true then
    trimEndMatches (s.take (s.length - pat.length)) pat
  else s
termination_by s.length
decreasing_by
  have h1 : pat.length ≤ s.length := by
    obtain ⟨t, ht⟩ := (List.isSuffixOf_iff_suffix.mp h.2)
    rw [← ht, List.length_append]
    omega
  have h2 : 0 < pat.length := List.length_pos.mpr h.1
  simp only [List.length_take]
  omega

/-- `to_lock_path` from `cargo.rs`. -/
def to_lock_path (manifestPath : List Nat) : List Nat :=
  trimEndMatches manifestPath (strBytes "Cargo.toml") ++ strBytes "Cargo.lock"

/-- `merge_deps` from `cargo.rs`: resolve the rename syntax to the
canonical name, parse the requirement string, silently skip the entry if
it does not parse, and overwrite any earlier requirement recorded for the
same canonical name. -/
def merge_deps (parseReq : List Nat → Option Nat) (target : List (List Nat × Nat)) :
    List (List Nat × ManifestDepRaw) → List (List Nat × Nat)
  | [] => target
  | (userKey, dep) :: rest =>
    merge_deps parseReq
      (match parseReq dep.reqStr with
        | some req => hmInsert target (dep.package.getD userKey) req
        | none => target) rest

/-- `parse_manifest_file` from `cargo.rs`. -/
def parse_manifest_file (parseManifest : List Nat → Option RawManifest)
    (parseReq : List Nat → Option Nat) (vf : ValidatedFile) : MRes ManifestInfo :=
  if validUtf8 vf.bytes then
    match parseManifest vf.bytes with
    | none => .error .ManifestParseError
    | some m =>
      .ok { path := vf.header.name
            deps := merge_deps parseReq (merge_deps parseReq (merge_deps parseReq []
              (m.dependencies.getD [])) (m.build_dependencies.getD []))
              (m.dev_dependencies.getD [])
            has_workspace := m.workspace.isSome
            workspace_members := m.workspace.map (fun ws => ws.members)
            workspace_excludes := m.workspace.bind (fun ws =>
              ws.exclude.filter (fun v => !v.isEmpty)) }
  else .error .InvalidManifestEncoding

/-- The package/dependency/path-package maps the `parse_lock_file` loop
builds from the lockfile's packages. -/
def lockMaps (pkgs : List RawLockPkg) :
    List (List Nat × Version) × List (List Nat × List (List Nat)) × List (List Nat) :=
  pkgs.foldl (fun acc pkg =>
    (hmInsert acc.1 pkg.name pkg.version,
     hmInsert acc.2.1 pkg.name pkg.dependencies,
     if pkg.hasSource then acc.2.2 else hsInsert acc.2.2 pkg.name))
    ([], [], [])

/-- `parse_lock_file` from `cargo.rs`. -/
def parse_lock_file (parseLock : List Nat → Option RawLock) (vf : ValidatedFile) :
    MRes LockInfo :=
  if validUtf8 vf.bytes then
    match parseLock vf.bytes with
    | none => .error .LockfileParseError
    | some lf =>
      if lf.resolveVersion == 3 || lf.resolveVersion == 4 then
        .ok { path := vf.header.name
              pkgs := (lockMaps lf.packages).1
              deps := (lockMaps lf.packages).2.1
              path_pkgs := (lockMaps lf.packages).2.2 }
      else .error .UnsupportedLockfileVersion
  else .error .InvalidLockfileEncoding

/-- `workspace_owns_manifest` from `cargo.rs`. -/
def workspace_owns_manifest (root m : ManifestInfo) : Bool :=
  let rootDir := trimEndMatches root.path (strBytes "Cargo.toml")
  if !(rootDir.isPrefixOf m.path) then false
  else if (match root.workspace_excludes with
      | some excludes => excludes.any (fun excl =>
          (rootDir ++ trimEndMatches excl [47]).isPrefixOf m.path)
      | none => false) then false
  else
    match root.workspace_members with
    | some members =>
      if members.isEmpty then false
      else members.any (fun mem => (rootDir ++ trimEndMatches mem [47]).isPrefixOf m.path)
    | none => true

/-- The workspace-root set `ensure_single_workspace` builds: one root per
manifest (itself if it has `[workspace]` or no explicit root owns it). -/
def rootPaths (manifests : List ManifestInfo) : List (List Nat) :=
  manifests.foldl (fun acc m =>
    if m.has_workspace then hsInsert acc m.path
    else
      match (manifests.filter (fun r => r.has_workspace)).find?
          (fun r => workspace_owns_manifest r m) with
      | some root => hsInsert acc root.path
      | none => hsInsert acc m.path) []

/-- `ensure_single_workspace` from `cargo.rs`. -/
def ensure_single_workspace (manifests : List ManifestInfo) : MRes (List Nat) :=
  if (rootPaths manifests).length == 1 then .ok ((rootPaths manifests).getD 0 [])
  else .error .InvalidWorkspaceCount

/-- `ensure_declared_reqs_are_satisfied` from `cargo.rs`. -/
def ensure_declared_reqs_are_satisfied (reqMatches : Nat → Version → Bool)
    (manifest : ManifestInfo) (lock : LockInfo) : MRes Unit :=
  match manifest.deps.find? (fun pr =>
      match hmGet lock.pkgs pr.1 with
      | some ver => !(reqMatches pr.2 ver)
      | none => true) with
  | some _ => .error .ManifestLockMismatch
  | none => .ok ()

/-- The DFS loop of `ensure_lock_graph_is_reachable`.  The Rust stack is
seeded from a `HashSet` in unspecified order; here the pending stack is a
list, and the computed `seen` set does not depend on its order. -/
def dfsGo (deps : List (List Nat × List (List Nat))) (seen : List (List Nat)) :
    List (List Nat) → List (List Nat)
  | [] => seen
  | x :: stack =>
    if seen.contains x then dfsGo deps seen stack
    else dfsGo deps (x :: seen) ((hmGet deps x).getD [] ++ stack)
termination_by stack =>
  (((deps.map (fun p => p.1)).filter (fun k => !(seen.contains k))).length, stack.length)
decreasing_by
· apply Prod.Lex.right
  simp
· rename_i hx
  have hx2 : seen.contains x = false := by
    simpa using hx
  have hmono : ∀ a, (fun k => !((x :: seen).contains k)) a = true →
      (fun k => !(seen.contains k)) a = true := by
    intro a ha
    simp only [List.contains_cons, Bool.not_or, Bool.and_eq_true] at ha
    exact ha.2
  have hsub : List.Sublist
      ((deps.map (fun p => p.1)).filter (fun k => !((x :: seen).contains k)))
      ((deps.map (fun p => p.1)).filter (fun k => !(seen.contains k))) :=
    List.monotone_filter_right _ hmono
  by_cases hk : x ∈ deps.map (fun p => p.1)
  · apply Prod.Lex.left
    rcases Nat.lt_or_ge
        ((deps.map (fun p => p.1)).filter (fun k => !((x :: seen).contains k))).length
        ((deps.map (fun p => p.1)).filter (fun k => !(seen.contains k))).length with h | h
    · exact h
    · exfalso
      have heq := hsub.eq_of_length_le h
      have hx3 : x ∉ seen := by simpa using hx
      have hxin : x ∈ (deps.map (fun p => p.1)).filter (fun k => !(seen.contains k)) :=
        List.mem_filter.mpr ⟨hk, by simp [hx3]⟩
      rw [← heq] at hxin
      have := (List.mem_filter.mp hxin).2
      simp at this
  · have hnone : hmGet deps x = none := by
      rw [hmGet, Option.map_eq_none', List.find?_eq_none]
      intro p hp
      have hpx : p.1 ≠ x := fun h => hk (by
        rw [← h]
        exact List.mem_map_of_mem (fun q => q.1) hp)
      simp [hpx]
    have heq : ((deps.map (fun p => p.1)).filter (fun k => !((x :: seen).contains k))) =
        ((deps.map (fun p => p.1)).filter (fun k => !(seen.contains k))) := by
      apply List.filter_congr
      intro a ha
      have hax : a ≠ x := fun h => hk (h ▸ ha)
      simp [List.contains_cons, hax]
    rw [heq, hnone]
    apply Prod.Lex.right
    simp

/-- `ensure_lock_graph_is_reachable` from `cargo.rs`. -/
def ensure_lock_graph_is_reachable (lock : LockInfo) : MRes Unit :=
  match lock.pkgs.find? (fun pr => !((dfsGo lock.deps [] lock.path_pkgs).contains pr.1)) with
  | some _ => .error .UndeclaredLockfileDependency
  | none => .ok ()

/-- `map_by` from `cargo.rs`. -/
def map_by {β : Type} (items : List β) (key : β → List Nat) : List (List Nat × β) :=
  items.foldl (fun acc it => hmInsert acc (key it) it) []

/-- `collect::<Result<Vec<_>, _>>`: map, short-circuiting on the first
error. -/
def mapExcept {α β : Type} (f : α → MRes β) : List α → MRes (List β)
  | [] => .ok []
  | a :: rest =>
    match f a with
    | .error e => .error e
    | .ok b =>
      match mapExcept f rest with
      | .error e => .error e
      | .ok bs => .ok (b :: bs)

/-- The member-crates-must-not-have-their-own-lockfile loop of
`validate_cargo_archive`: it checks every manifest without `[workspace]`,
including an implicit workspace root. -/
def redundant_lock_check (mbp : List (List Nat × ManifestInfo))
    (lbp : List (List Nat × LockInfo)) : MRes Unit :=
  match mbp.find? (fun pm =>
      !pm.2.has_workspace && (hmGet lbp (to_lock_path pm.1)).isSome) with
  | some _ => .error .RedundantLockfile
  | none => .ok ()

/-- The per-manifest `ensure_declared_reqs_are_satisfied` loop. -/
def declared_checks (reqMatches : Nat → Version → Bool) (lock : LockInfo) :
    List ManifestInfo → MRes Unit
  | [] => .ok ()
  | m :: rest =>
    match ensure_declared_reqs_are_satisfied reqMatches m lock with
    | .error e => .error e
    | .ok _ => declared_checks reqMatches lock rest

/-- The per-lock `ensure_lock_graph_is_reachable` loop. -/
def reachable_checks : List LockInfo → MRes Unit
  | [] => .ok ()
  | l :: rest =>
    match ensure_lock_graph_is_reachable l with
    | .error e => .error e
    | .ok _ => reachable_checks rest

/-- The flattened list of external dependencies `validate_cargo_archive`
returns: every non-path package of every lockfile. -/
def resolved_list (lbp : List (List Nat × LockInfo)) : List ResolvedDependency :=
  (lbp.map (fun pl =>
    (pl.2.pkgs.filter (fun pr => !(pl.2.path_pkgs.contains pr.1))).map
      (fun pr => { name := pr.1, version := pr.2, provenance := pl.2.path
                   : ResolvedDependency }))).flatten

/-- `validate_cargo_archive` from `cargo.rs`. -/
def validate_cargo_archive (parseManifest : List Nat → Option RawManifest)
    (parseReq : List Nat → Option Nat) (reqMatches : Nat → Version → Bool)
    (parseLock : List Nat → Option RawLock) (archive : ValidPartialArchive) :
    MRes (List ResolvedDependency) :=
  match mapExcept (parse_manifest_file parseManifest parseReq)
      (archive.files.filter (fun vf => (strBytes "Cargo.toml").isSuffixOf vf.header.name)) with
  | .error e => .error e
  | .ok manifests =>
    match ensure_single_workspace manifests with
    | .error e => .error e
    | .ok workspaceRootManifestPath =>
      match mapExcept (parse_lock_file parseLock)
          (archive.files.filter (fun vf =>
            (strBytes "Cargo.lock").isSuffixOf vf.header.name)) with
      | .error e => .error e
      | .ok locks =>
        match redundant_lock_check (map_by manifests (fun m => m.path))
            (map_by locks (fun l => l.path)) with
        | .error e => .error e
        | .ok _ =>
          match hmGet (map_by locks (fun l => l.path))
              (to_lock_path workspaceRootManifestPath) with
          | none => .error .MissingLockfile
          | some workspaceLock =>
            match declared_checks reqMatches workspaceLock
                ((map_by manifests (fun m => m.path)).map (fun p => p.2)) with
            | .error e => .error e
            | .ok _ =>
              match reachable_checks ((map_by locks (fun l => l.path)).map (fun p => p.2)) with
              | .error e => .error e
              | .ok _ => .ok (resolved_list (map_by locks (fun l => l.path)))

/-! ## `license.rs`, `audit.rs` and `main.rs`

SPDX expressions (external `spdx` crate) are embedded as the and/or tree
over leaf requirements; a requirement is represented by its display
string, which is also the key `LicensePolicy` compares with. -/

/-- An SPDX expression as `Expression::evaluate` walks it. -/
inductive SpdxExpr where
  | req (r : List Nat)
  | and (a b : SpdxExpr)
  | or (a b : SpdxExpr)
deriving Repr, DecidableEq, Inhabited

/-- `spdx::Expression::evaluate`. -/
def SpdxExpr.evaluate (f : List Nat → Bool) : SpdxExpr → Bool
  | .req r => f r
  | .and a b => a.evaluate f && b.evaluate f
  | .or a b => a.evaluate f || b.evaluate f

/-- `Dependency` from `types/src/dependency.rs`. -/
structure Dependency where
  name : List Nat
  license : SpdxExpr
  min_safe_version : Version
deriving Repr, DecidableEq, Inhabited

/-- `PermittedDependencies` from `types/src/dependency.rs`. -/
structure PermittedDependencies where
  resolvable_with : PackageManager
  dependencies : List Dependency
deriving Repr, DecidableEq, Inhabited

/-- The allowlist-by-name map `audit_dependencies` builds. -/
def allowByPkg (allowlist : List Dependency) : List (List Nat × Dependency) :=
  allowlist.foldl (fun acc d => hmInsert acc d.name d) []

/-- `enforce_policies` from `audit.rs`: allowlist membership, then the
license policy, then the minimum safe version. -/
def enforce_policies (dep : ResolvedDependency) (abp : List (List Nat × Dependency))
    (policy : Option (List (List Nat))) : MRes Unit :=
  match hmGet abp dep.name with
  | none => .error .DisallowedDependency
  | some safe =>
    if (match policy with
        | some pol => !(safe.license.evaluate (fun r => pol.contains r))
        | none => false) then .error .DisallowedLicense
    else if versionLt dep.version safe.min_safe_version then .error .DisallowedVersion
    else .ok ()

/-- `audit_dependencies` from `audit.rs`. -/
def audit_dependencies (resolved : List ResolvedDependency)
    (allowlist : List Dependency) (policy : Option (List (List Nat))) : MRes Unit :=
  auditGo resolved (allowByPkg allowlist) policy
where
  auditGo : List ResolvedDependency → List (List Nat × Dependency) →
      Option (List (List Nat)) → MRes Unit
    | [], _, _ => .ok ()
    | dep :: rest, abp, pol =>
      match enforce_policies dep abp pol with
      | .error e => .error e
      | .ok _ => auditGo rest abp pol

/-- Byte-lexicographic order on strings, the `Ord` used by
`sort_by_key`. -/
def bytesLe : List Nat → List Nat → Bool
  | [], _ => true
  | _ :: _, [] => false
  | a :: as2, b :: bs => if a < b then true else if b < a then false else bytesLe as2 bs

/-- The `windows(2)` adjacent-duplicate scan of
`validate_nonempty_unique`. -/
def hasAdjDup : List (List Nat) → Bool
  | a :: b :: rest => a == b || hasAdjDup (b :: rest)
  | _ => false

/-- `validate_nonempty_unique` / `LicensePolicy::try_new` over license
requirements represented by their display strings; the diagnostic
messages are dropped. -/
def licensePolicyTryNew (allowed : List (List Nat)) : Except Unit (List (List Nat)) :=
  if allowed.isEmpty then .error ()
  else if hasAdjDup (allowed.mergeSort bytesLe) then .error ()
  else .ok (allowed.mergeSort bytesLe)

/-- The per-string loop of `LicensePolicy::deserialize`: parse an SPDX
expression and insist it holds exactly one requirement. -/
def policyReqsOf (parseExpr : List Nat → Option (List (List Nat))) :
    List (List Nat) → Except Unit (List (List Nat))
  | [] => .ok []
  | sb :: rest =>
    match parseExpr sb with
    | none => .error ()
    | some reqs =>
      match reqs with
      | [r] =>
        match policyReqsOf parseExpr rest with
        | .error e => .error e
        | .ok out => .ok (r :: out)
      | _ => .error ()

/-- `LicensePolicy::deserialize`: parse every string, then
`try_new`. -/
def deserializeLicensePolicy (parseExpr : List Nat → Option (List (List Nat)))
    (raw : List (List Nat)) : Except Unit (List (List Nat)) :=
  match policyReqsOf parseExpr raw with
  | .error e => .error e
  | .ok out => licensePolicyTryNew out

/-- The CLI's license-policy construction (`cli/src/main.rs`): an empty
`--allowed-licenses` list short-circuits to no policy; otherwise the list
is serialized to JSON and deserialized as a `LicensePolicy`. -/
def cliLicensePolicy (parseExpr : List Nat → Option (List (List Nat)))
    (allowed_licenses : List (List Nat)) : Except Unit (Option (List (List Nat))) :=
  if allowed_licenses.isEmpty then .ok none
  else
    match deserializeLicensePolicy parseExpr allowed_licenses with
    | .error e => .error e
    | .ok pol => .ok (some pol)

/-- `GuestInput` from `guest-abi/src/guest.rs`. -/
structure GuestInput where
  src_archive : PartialMerkleArchive
  permitted_deps : PermittedDependencies
  license_policy : Option (List (List Nat))
deriving Repr, Inhabited

/-- `GuestOutputV0` from `guest-abi/src/guest.rs` (the journal). -/
structure GuestOutputV0 where
  root_hash : Nat
  permitted_deps : PermittedDependencies
  license_policy : Option (List (List Nat))
deriving Repr, DecidableEq, Inhabited

/-- `real_main` from `guest/method/src/main.rs`: the committed journal on
success, the error (the panic code) on failure. -/
def real_main (hB : List Nat → Nat) (hP : Nat → Nat → Nat)
    (parseManifest : List Nat → Option RawManifest) (parseReq : List Nat → Option Nat)
    (reqMatches : Nat → Version → Bool) (parseLock : List Nat → Option RawLock)
    (input : GuestInput) : Except ScaError GuestOutputV0 :=
  if input.src_archive.resolvedWith.manager == input.permitted_deps.resolvable_with then
    match validate_merkle_archive hB hP input.src_archive with
    | .error e => .error e
    | .ok vpa =>
      if versionLt input.src_archive.resolvedWith.version ⟨1, 51, 0⟩ then
        .error .UnsupportedPackageManager
      else
        match validate_cargo_archive parseManifest parseReq reqMatches parseLock vpa with
        | .error e => .error e
        | .ok resolved =>
          match audit_dependencies resolved input.permitted_deps.dependencies
              input.license_policy with
          | .error e => .error e
          | .ok _ =>
            .ok { root_hash := input.src_archive.rootHash
                  permitted_deps := input.permitted_deps
                  license_policy := input.license_policy }
  else .error .InconsistentPackageManager

/-- A manifest parser for concrete instantiations: the byte `109`
(a placeholder for a minimal `[package]`-only `Cargo.toml`) parses to a
manifest with no tables and no `[workspace]`. -/
def parseManifestC4 : List Nat → Option RawManifest :=
  fun b => if b == [109] then some ⟨none, none, none, none⟩ else none

/-- A lockfile parser for concrete instantiations: the byte `108`
(a placeholder for a v3 `Cargo.lock` with the single path package "a")
parses accordingly. -/
def parseLockC4 : List Nat → Option RawLock :=
  fun b => if b == [108] then some ⟨3, [⟨[97], ⟨0, 1, 0⟩, [], false⟩]⟩ else none

/-- Spec-side edge relation of a lock's dependency graph: one step
follows the declared-children edges. -/
def lockStep (deps : List (List Nat × List (List Nat))) (a b : List Nat) : Prop :=
  b ∈ (hmGet deps a).getD []

/-- A concrete lockfile for instantiations: path package "r" (114)
depends on external package "f" (102). -/
def c6Lock : LockInfo :=
  { path := strBytes "Cargo.lock"
    pkgs := [([114], ⟨0, 1, 0⟩), ([102], ⟨1, 0, 0⟩)]
    deps := [([114], [[102]]), ([102], [])]
    path_pkgs := [[114]] }

/-- C5 instance: a workspace-root manifest declaring
`[dependencies] foo = "^1"` and `[dev-dependencies] foo = "^2"`. -/
def c5Manifest : RawManifest :=
  { dependencies := some [(strBytes "foo", ⟨none, strBytes "^1"⟩)]
    build_dependencies := none
    dev_dependencies := some [(strBytes "foo", ⟨none, strBytes "^2"⟩)]
    workspace := some ⟨[], none⟩ }

/-- C5 instance: a v3 lockfile whose path package "r" depends on "foo",
pinned at 2.0.0. -/
def c5Lock : RawLock :=
  { resolveVersion := 3
    packages := [⟨strBytes "r", ⟨0, 1, 0⟩, [strBytes "foo"], false⟩,
                 ⟨strBytes "foo", ⟨2, 0, 0⟩, [], true⟩] }

/-- Manifest parser for the C5 instance (byte `77` stands for the
manifest text). -/
def parseManifestC5 : List Nat → Option RawManifest :=
  fun b => if b == [77] then some c5Manifest else none

/-- Lockfile parser for the C5 instance (byte `76` stands for the
lockfile text). -/
def parseLockC5 : List Nat → Option RawLock :=
  fun b => if b == [76] then some c5Lock else none

/-- Requirement parser for the C5 instance: "^1" and "^2" parse. -/
def parseReqC5 : List Nat → Option Nat :=
  fun b =>
    if b == strBytes "^1" then some 1
    else if b == strBytes "^2" then some 2 else none

/-- Caret matching as real semver behaves on these inputs: `^n` matches
exactly major version `n`. -/
def reqMatchesC5 : Nat → Version → Bool := fun r v => v.major == r

/-- The validated archive of the C5 instance. -/
def c5Archive : ValidPartialArchive :=
  { headers := []
    files := [{ header := { name := strBytes "Cargo.toml", size := 1 }, bytes := [77] },
              { header := { name := strBytes "Cargo.lock", size := 1 }, bytes := [76] }] }

/-- The `ManifestInfo` the C5 manifest parses to: the dev-dependencies
requirement for "foo" has overwritten the `[dependencies]` one. -/
def c5MI : ManifestInfo :=
  { path := strBytes "Cargo.toml"
    deps := [(strBytes "foo", 2)]
    has_workspace := true
    workspace_members := some []
    workspace_excludes := none }

/-- The `LockInfo` the C5 lockfile parses to. -/
def c5LI : LockInfo :=
  { path := strBytes "Cargo.lock"
    pkgs := [(strBytes "r", ⟨0, 1, 0⟩), (strBytes "foo", ⟨2, 0, 0⟩)]
    deps := [(strBytes "r", [strBytes "foo"]), (strBytes "foo", [])]
    path_pkgs := [strBytes "r"] }

/-- Spec-side compliance of one resolved dependency (stated from the
claim's wording, for comparison with the code's `enforce_policies`):
allowlisted by name, license expression evaluating to allowed with each
leaf allowed exactly when the policy set holds it (when a policy is
present), and pinned at or above the minimum safe version. -/
def depCompliantSpec (allowlist : List Dependency) (policy : Option (List (List Nat)))
    (dep : ResolvedDependency) : Prop :=
  ∃ safe, hmGet (allowByPkg allowlist) dep.name = some safe ∧
    (∀ pol, policy = some pol →
      safe.license.evaluate (fun r => pol.contains r) = true) ∧
    versionLt dep.version safe.min_safe_version = false

/-- Spec-side error kind for a non-compliant dependency, applying the
checks in the claim's order: allowlist, then license, then version. -/
def firstFailKindSpec (allowlist : List Dependency) (policy : Option (List (List Nat)))
    (dep : ResolvedDependency) : ScaError :=
  match hmGet (allowByPkg allowlist) dep.name with
  | none => .DisallowedDependency
  | some safe =>
    match policy with
    | some pol =>
      if !(safe.license.evaluate (fun r => pol.contains r)) then .DisallowedLicense
      else .DisallowedVersion
    | none => .DisallowedVersion

/-- An allowlist entry for concrete instantiations: crate "foo", license
MIT, minimum safe version 1.0.0. -/
def c7Allow : Dependency :=
  { name := strBytes "foo", license := .req (strBytes "MIT"), min_safe_version := ⟨1, 0, 0⟩ }

/-- A resolved dependency for concrete instantiations: foo 2.0.0. -/
def c7Res : ResolvedDependency :=
  { name := strBytes "foo", version := ⟨2, 0, 0⟩, provenance := strBytes "Cargo.lock" }

/-- A second resolved dependency for permutation instantiations:
bar 3.0.0. -/
def c9Res : ResolvedDependency :=
  { name := strBytes "bar", version := ⟨3, 0, 0⟩, provenance := strBytes "Cargo.lock" }

/-- A second allowlist entry: crate "bar", license MIT, minimum 1.0.0. -/
def c9Allow : Dependency :=
  { name := strBytes "bar", license := .req (strBytes "MIT"), min_safe_version := ⟨1, 0, 0⟩ }

/-- An SPDX parser for concrete instantiations (never consulted on the
empty list). -/
def parseExprC8 : List Nat → Option (List (List Nat)) := fun _ => none

/-! ## Theorems -/

/-! ### The Merkle layer: generated proofs verify and pin the leaf index -/

theorem or_shiftLeft_distrib (x y k : Nat) : (x ||| y) <<< k = (x <<< k) ||| (y <<< k) := by
  apply Nat.eq_of_testBit_eq
  intro i
  simp only [Nat.testBit_shiftLeft, Nat.testBit_or]
  cases decide (k ≤ i) <;> simp

theorem one_or_two_mul (b : Nat) : 1 ||| (2 * b) = 1 + 2 * b := by
  apply Nat.eq_of_testBit_eq
  intro i
  cases i with
  | zero =>
    simp only [Nat.testBit_or, Nat.testBit_zero]
    have h2 : (1 + 2 * b) % 2 = 1 := by omega
    simp [h2]
  | succ j =>
    rw [Nat.testBit_or]
    simp only [Nat.testBit_succ]
    have h1 : (1 : Nat) / 2 = 0 := by norm_num
    have h2 : (2 * b) / 2 = b := by omega
    have h3 : (1 + 2 * b) / 2 = b := by omega
    simp [h1, h2, h3]

theorem reconstructGo_eq (path : List MerklePathNode) :
    ∀ bit acc, reconstructGo bit acc path = acc ||| (reconIdx path <<< bit) := by
  induction path with
  | nil => intro bit acc; simp [reconstructGo, reconIdx, Nat.zero_shiftLeft]
  | cons node rest ih =>
    intro bit acc
    have hshift : reconIdx (node :: rest) <<< bit =
        (((if node.isLeftChild then 0 else 1) : Nat) <<< bit) ||| (reconIdx rest <<< (bit + 1)) := by
      have h2 : reconIdx rest <<< (bit + 1) = (2 * reconIdx rest) <<< bit := by
        simp only [Nat.shiftLeft_eq, pow_succ]
        ring
      rw [h2, ← or_shiftLeft_distrib]
      cases hl : node.isLeftChild <;> simp [reconIdx, hl, one_or_two_mul]
    rw [reconstructGo, ih, hshift, Nat.or_assoc]

theorem reconstruct_leaf_index_eq (path : List MerklePathNode) :
    reconstruct_leaf_index path = reconIdx path := by
  rw [reconstruct_leaf_index, reconstructGo_eq]
  simp

theorem levelUp_length (hP : Nat → Nat → Nat) (l : List Nat) :
    (levelUp hP l).length = (l.length + 1) / 2 := by
  induction l using levelUp.induct hP with
  | case1 => simp [levelUp]
  | case2 _ => simp [levelUp]
  | case3 a b rest ih => simp only [levelUp, List.length_cons, ih]; omega

theorem levelUp_getD (hP : Nat → Nat → Nat) (l : List Nat) :
    ∀ i, i < l.length → (levelUp hP l).getD (i / 2) 0 = stepHash hP l i := by
  induction l using levelUp.induct hP with
  | case1 => intro i h; simp at h
  | case2 a =>
    intro i h
    have h0 : i = 0 := by simp at h; omega
    subst h0
    simp [levelUp, stepHash]
  | case3 a b rest ih =>
    intro i h
    match i with
    | 0 => simp [levelUp, stepHash]
    | 1 => simp [levelUp, stepHash]
    | (k + 2) =>
      have hk : k < rest.length := by
        simp only [List.length_cons] at h; omega
      have e1 : (k + 2) / 2 = k / 2 + 1 := by omega
      have e2 : (k + 2) % 2 = k % 2 := by omega
      rw [levelUp, e1, List.getD_cons_succ, ih k hk]
      rcases Nat.even_or_odd k with he | ho
      · have hm : k % 2 = 0 := Nat.even_iff.mp he
        simp [stepHash, e2, hm, List.getD_cons_succ]
      · have hm : k % 2 = 1 := Nat.odd_iff.mp ho
        have e3 : k + 2 - 1 = (k - 1) + 2 := by omega
        simp [stepHash, e2, hm, e3, List.getD_cons_succ]

theorem buildLayers_ne_nil (hP : Nat → Nat → Nat) (l : List Nat) :
    buildLayers hP l ≠ [] := by
  by_cases h : l.length ≤ 1
  · rw [buildLayers, if_pos h]; simp
  · rw [buildLayers, if_neg h]; simp

theorem merkleRoot_cons (x : List Nat) (layers : List (List Nat)) (h : layers ≠ []) :
    merkleRoot (x :: layers) = merkleRoot layers := by
  obtain ⟨y, ys, rfl⟩ := List.exists_cons_of_ne_nil h
  simp [merkleRoot, List.getLastD_cons]

theorem buildLayers_le_one (hP : Nat → Nat → Nat) (l : List Nat) (h : l.length ≤ 1) :
    buildLayers hP l = [l] := by
  rw [buildLayers, if_pos h]

theorem buildLayers_step (hP : Nat → Nat → Nat) (l : List Nat) (h : ¬ l.length ≤ 1) :
    buildLayers hP l = l :: buildLayers hP (levelUp hP l) := by
  rw [buildLayers, if_neg h]

theorem verifyFold_cons (hP : Nat → Nat → Nat) (h : Nat) (node : MerklePathNode)
    (p : List MerklePathNode) :
    verifyFold hP h (node :: p) =
      verifyFold hP (if node.isLeftChild then hP h node.siblingHash else hP node.siblingHash h) p :=
  rfl

theorem pathFor_cons (level L0 : List Nat) (Ls : List (List Nat)) (idx : Nat) :
    pathFor (level :: L0 :: Ls) idx =
      { siblingHash :=
          if idx % 2 == 0 then level.getD (idx + 1) (level.getD idx 0)
          else level.getD (idx - 1) 0,
        isLeftChild := (idx % 2 == 0 : Bool) } :: pathFor (L0 :: Ls) (idx / 2) :=
  rfl

theorem pathFor_spec (hP : Nat → Nat → Nat) :
    ∀ n (l : List Nat), l.length = n → ∀ i, i < l.length →
      verifyFold hP (l.getD i 0) (pathFor (buildLayers hP l) i) = merkleRoot (buildLayers hP l) ∧
      reconIdx (pathFor (buildLayers hP l) i) = i := by
  intro n
  induction n using Nat.strong_induction_on with
  | _ n ih =>
    intro l hl i hi
    by_cases hle : l.length ≤ 1
    · have h1 : l.length = 1 := by omega
      obtain ⟨x, rfl⟩ := List.length_eq_one.mp h1
      have hi0 : i = 0 := by simpa using hi
      subst hi0
      rw [buildLayers_le_one hP _ hle]
      simp [pathFor, verifyFold, merkleRoot, reconIdx]
    · rw [buildLayers_step hP l hle]
      have hne := buildLayers_ne_nil hP (levelUp hP l)
      obtain ⟨L0, Ls, hcons⟩ := List.exists_cons_of_ne_nil hne
      have hlen2 : (levelUp hP l).length = (l.length + 1) / 2 := levelUp_length hP l
      have hlt : (levelUp hP l).length < n := by omega
      have hi2 : i / 2 < (levelUp hP l).length := by omega
      have hrec := ih _ hlt (levelUp hP l) rfl (i / 2) hi2
      have hstep : (levelUp hP l).getD (i / 2) 0 = stepHash hP l i := levelUp_getD hP l i hi
      rw [hcons] at hrec
      rw [hcons, pathFor_cons, verifyFold_cons]
      have hroot : merkleRoot (l :: L0 :: Ls) = merkleRoot (L0 :: Ls) :=
        merkleRoot_cons _ _ (by simp)
      constructor
      · rw [hroot]
        rcases Nat.even_or_odd i with he | ho
        · have hm : i % 2 = 0 := Nat.even_iff.mp he
          have hnode :
              (if ((i % 2 == 0 : Bool) = true) then
                hP (l.getD i 0)
                  (if i % 2 == 0 then l.getD (i + 1) (l.getD i 0) else l.getD (i - 1) 0)
              else
                hP (if i % 2 == 0 then l.getD (i + 1) (l.getD i 0) else l.getD (i - 1) 0)
                  (l.getD i 0)) = stepHash hP l i := by
            simp [stepHash, hm]
          rw [hnode, ← hstep]
          exact hrec.1
        · have hm : i % 2 = 1 := Nat.odd_iff.mp ho
          have hnode :
              (if ((i % 2 == 0 : Bool) = true) then
                hP (l.getD i 0)
                  (if i % 2 == 0 then l.getD (i + 1) (l.getD i 0) else l.getD (i - 1) 0)
              else
                hP (if i % 2 == 0 then l.getD (i + 1) (l.getD i 0) else l.getD (i - 1) 0)
                  (l.getD i 0)) = stepHash hP l i := by
            simp [stepHash, hm]
          rw [hnode, ← hstep]
          exact hrec.1
      · rw [reconIdx, hrec.2]
        rcases Nat.even_or_odd i with he | ho
        · have hm : i % 2 = 0 := Nat.even_iff.mp he
          simp only [hm, beq_self_eq_true, if_true]
          omega
        · have hm : i % 2 = 1 := Nat.odd_iff.mp ho
          have : ((1 : Nat) == 0) = false := by decide
          simp only [hm, this, Bool.false_eq_true, if_false]
          omega

/-! ### The builder's scan: closed forms -/

theorem scanEntries_spec : ∀ (entries : List TarEntry) (st : ScanState),
    scanEntries entries st =
      { rawBlocks := st.rawBlocks ++ bodyBlocks entries
        headerIndices := st.headerIndices ++ hdrIdxList st.rawBlocks.length entries
        depRawIndices := st.depRawIndices ++ depRawList st.rawBlocks.length entries
        depHeaderIndices := st.depHeaderIndices ++ depHdrList st.headerIndices.length entries } := by
  intro entries
  induction entries with
  | nil =>
    intro st
    simp [scanEntries, bodyBlocks, hdrIdxList, depRawList, depHdrList]
  | cons e rest ih =>
    intro st
    rw [scanEntries, ih]
    have hlen : (st.rawBlocks ++ e.header :: chunk512 e.content).length =
        st.rawBlocks.length + entryLen e := by
      simp [entryLen]; omega
    simp only [scanEntry, ScanState.mk.injEq, hlen, List.length_append, List.length_cons,
      List.length_nil]
    refine ⟨?_, ?_, ?_, ?_⟩
    · simp [bodyBlocks, entryBlocks]
    · rw [hdrIdxList]
      simp
    · rw [depRawList]
      simp
    · rw [depHdrList]
      simp

theorem bodyBlocks_cons (e : TarEntry) (rest : List TarEntry) :
    bodyBlocks (e :: rest) = entryBlocks e ++ bodyBlocks rest := by
  simp [bodyBlocks]

theorem entryBlocks_length (e : TarEntry) : (entryBlocks e).length = entryLen e := by
  simp [entryBlocks, entryLen]; omega

theorem bodyBlocks_length (entries : List TarEntry) :
    (bodyBlocks entries).length = (entries.map entryLen).sum := by
  induction entries with
  | nil => simp [bodyBlocks]
  | cons e rest ih => rw [bodyBlocks_cons]; simp [entryBlocks_length, ih]

theorem hdrIdxList_length (base : Nat) (entries : List TarEntry) :
    (hdrIdxList base entries).length = entries.length := by
  induction entries generalizing base with
  | nil => rfl
  | cons e rest ih => simp [hdrIdxList, ih]

theorem relHdrIdx_zero (entries : List TarEntry) : relHdrIdx entries 0 = 0 := by
  simp [relHdrIdx]

theorem relHdrIdx_succ (e : TarEntry) (rest : List TarEntry) (j : Nat) :
    relHdrIdx (e :: rest) (j + 1) = entryLen e + relHdrIdx rest j := by
  simp [relHdrIdx]

theorem relHdrIdx_bound (entries : List TarEntry) :
    ∀ j, j < entries.length →
      relHdrIdx entries j + entryLen (entries.getD j default) ≤ (entries.map entryLen).sum := by
  induction entries with
  | nil => intro j hj; simp at hj
  | cons e rest ih =>
    intro j hj
    match j with
    | 0 => simp [relHdrIdx_zero]
    | j + 1 =>
      have hj' : j < rest.length := by simp at hj; omega
      have := ih j hj'
      rw [relHdrIdx_succ]
      simp only [List.getD_cons_succ, List.map_cons, List.sum_cons]
      omega

theorem hdrIdxList_getD (entries : List TarEntry) :
    ∀ base j, j < entries.length →
      (hdrIdxList base entries).getD j 0 = base + relHdrIdx entries j := by
  induction entries with
  | nil => intro base j hj; simp at hj
  | cons e rest ih =>
    intro base j hj
    match j with
    | 0 => simp [hdrIdxList, relHdrIdx_zero]
    | j + 1 =>
      have hj' : j < rest.length := by simp at hj; omega
      rw [hdrIdxList, List.getD_cons_succ, ih _ j hj', relHdrIdx_succ]
      omega

theorem body_getD_hdr (entries : List TarEntry) :
    ∀ j, j < entries.length →
      (bodyBlocks entries).getD (relHdrIdx entries j) [] = (entries.getD j default).header := by
  induction entries with
  | nil => intro j hj; simp at hj
  | cons e rest ih =>
    intro j hj
    match j with
    | 0 => simp [bodyBlocks_cons, relHdrIdx_zero, entryBlocks]
    | j + 1 =>
      have hj' : j < rest.length := by simp at hj; omega
      rw [bodyBlocks_cons, relHdrIdx_succ,
        List.getD_append_right _ _ _ _ (by rw [entryBlocks_length]; omega)]
      have harith : entryLen e + relHdrIdx rest j - (entryBlocks e).length = relHdrIdx rest j := by
        rw [entryBlocks_length]; omega
      rw [harith, ih j hj', List.getD_cons_succ]

theorem body_getD_data (entries : List TarEntry) :
    ∀ j k, j < entries.length → k < (chunk512 (entries.getD j default).content).length →
      (bodyBlocks entries).getD (relHdrIdx entries j + 1 + k) [] =
        (chunk512 (entries.getD j default).content).getD k [] := by
  induction entries with
  | nil => intro j k hj _; simp at hj
  | cons e rest ih =>
    intro j k hj hk
    match j with
    | 0 =>
      simp only [List.getD_cons_zero] at hk ⊢
      rw [bodyBlocks_cons, relHdrIdx_zero]
      have hlt : 0 + 1 + k < (entryBlocks e).length := by
        rw [entryBlocks_length, entryLen]; omega
      rw [List.getD_append _ _ _ _ hlt]
      show (e.header :: chunk512 e.content).getD (0 + 1 + k) [] = _
      have h1 : 0 + 1 + k = k + 1 := by omega
      rw [h1, List.getD_cons_succ]
    | j + 1 =>
      simp only [List.getD_cons_succ] at hk ⊢
      have hj' : j < rest.length := by simp at hj; omega
      rw [bodyBlocks_cons, relHdrIdx_succ,
        List.getD_append_right _ _ _ _ (by rw [entryBlocks_length]; omega)]
      have harith : entryLen e + relHdrIdx rest j + 1 + k - (entryBlocks e).length =
          relHdrIdx rest j + 1 + k := by
        rw [entryBlocks_length]; omega
      rw [harith, ih j k hj' hk]

theorem depSched_mem (entries : List TarEntry) :
    ∀ pos base t, t ∈ depSched pos base entries →
      ∃ j, j < entries.length ∧ isDepHeader (entries.getD j default).header = true ∧
        t = (pos + j, base + relHdrIdx entries j, entries.getD j default) := by
  induction entries with
  | nil => intro pos base t ht; simp [depSched] at ht
  | cons e rest ih =>
    intro pos base t ht
    rw [depSched] at ht
    rcases List.mem_append.mp ht with hin | hin
    · by_cases hdep : isDepHeader e.header
      · rw [if_pos hdep] at hin
        simp at hin
        exact ⟨0, by simp, by simpa using hdep, by simp [hin, relHdrIdx_zero]⟩
      · rw [if_neg hdep] at hin
        simp at hin
    · obtain ⟨j, hj, hdep, hteq⟩ := ih (pos + 1) (base + entryLen e) t hin
      refine ⟨j + 1, by simp; omega, by simpa using hdep, ?_⟩
      rw [hteq, relHdrIdx_succ]
      simp only [List.getD_cons_succ]
      congr 1
      · omega
      · congr 1
        omega

theorem depRawList_eq (entries : List TarEntry) :
    ∀ pos base, depRawList base entries =
      ((depSched pos base entries).map
        (fun t => (List.range (chunk512 t.2.2.content).length).map (fun k => t.2.1 + 1 + k))).flatten := by
  induction entries with
  | nil => intro pos base; simp [depRawList, depSched]
  | cons e rest ih =>
    intro pos base
    rw [depRawList, depSched]
    by_cases hdep : isDepHeader e.header
    · rw [if_pos hdep, if_pos hdep, List.map_append, List.flatten_append,
        ← ih (pos + 1) (base + entryLen e)]
      simp
    · rw [if_neg hdep, if_neg hdep, List.nil_append, List.nil_append]
      exact ih (pos + 1) (base + entryLen e)

theorem depHdrList_eq (entries : List TarEntry) :
    ∀ pos base, depHdrList pos entries = (depSched pos base entries).map (fun t => t.1) := by
  induction entries with
  | nil => intro pos base; simp [depHdrList, depSched]
  | cons e rest ih =>
    intro pos base
    rw [depHdrList, depSched]
    by_cases hdep : isDepHeader e.header
    · rw [if_pos hdep, if_pos hdep]
      simp only [List.map_append, List.map_cons, List.map_nil]
      rw [← ih (pos + 1) (base + entryLen e)]
    · rw [if_neg hdep, if_neg hdep]
      simp only [List.nil_append, List.map_nil]
      exact ih (pos + 1) (base + entryLen e)

/-! ### Chunking and decimal lemmas -/

theorem chunk512_length (l : List Nat) : (chunk512 l).length = block_count l.length := by
  by_cases h : l = []
  · subst h; rw [chunk512]; simp [block_count]
  · rw [chunk512, dif_neg h]
    have hlen : l.length ≠ 0 := fun hl => h (List.eq_nil_of_length_eq_zero hl)
    have ih : (chunk512 (l.drop 512)).length = block_count (l.drop 512).length :=
      chunk512_length (l.drop 512)
    rw [List.length_cons, ih, List.length_drop, block_count, block_count]
    omega
termination_by l.length
decreasing_by
  simp only [List.length_drop]
  have hnz : l.length ≠ 0 := fun hl => h (List.eq_nil_of_length_eq_zero hl)
  omega

theorem chunk512_join_pad (l : List Nat) :
    ∃ m, (chunk512 l).flatten = l ++ List.replicate m 0 := by
  by_cases h : l = []
  · subst h; rw [chunk512]; exact ⟨0, by simp⟩
  · rw [chunk512, dif_neg h]
    obtain ⟨m, hm⟩ := chunk512_join_pad (l.drop 512)
    by_cases hlen : l.length ≤ 512
    · have hdrop : l.drop 512 = [] := List.drop_eq_nil_of_le hlen
      rw [hdrop] at hm ⊢
      have htake : l.take 512 = l := List.take_of_length_le hlen
      refine ⟨512 - l.length + m, ?_⟩
      rw [List.flatten_cons, hm, padTo512, htake]
      simp only [List.nil_append]
      rw [List.append_assoc, ← List.replicate_add]
    · have htake : (l.take 512).length = 512 := by
        rw [List.length_take]; omega
      refine ⟨m, ?_⟩
      rw [List.flatten_cons, hm, padTo512, htake]
      rw [Nat.sub_self, List.replicate_zero, List.append_nil]
      rw [← List.append_assoc, List.take_append_drop]
termination_by l.length
decreasing_by
  all_goals
    simp only [List.length_drop]
    have hnz : l.length ≠ 0 := fun hl => h (List.eq_nil_of_length_eq_zero hl)
    omega

theorem chunk512_join_take (l : List Nat) : ((chunk512 l).flatten).take l.length = l := by
  obtain ⟨m, hm⟩ := chunk512_join_pad l
  rw [hm, List.take_append_of_le_length (le_refl l.length), List.take_length]

/-! ### Decimal and count-leaf lemmas -/

theorem foldDec_cons (v d : Nat) (l : List Nat) :
    foldDec v (d :: l) = foldDec (v * 10 + (d - 48)) l := rfl

theorem decimalBytesAux_foldDec : ∀ n, 0 < n → ∀ (acc : List Nat) (v : Nat),
    foldDec v (decimalBytesAux n acc) = foldDec (v * 10 ^ numDigits n + n) acc := by
  intro n
  induction n using Nat.strong_induction_on with
  | _ n ih =>
    intro hn acc v
    match n, hn with
    | n + 1, _ =>
      rw [decimalBytesAux]
      by_cases hq : (n + 1) / 10 = 0
      · rw [hq, decimalBytesAux, foldDec_cons]
        have hnd : numDigits (n + 1) = 1 := by rw [numDigits, hq, numDigits]
        rw [hnd]
        congr 1
        omega
      · have hlt : (n + 1) / 10 < n + 1 := by omega
        have hpos : 0 < (n + 1) / 10 := Nat.pos_of_ne_zero hq
        rw [ih _ hlt hpos, foldDec_cons]
        have hnd : numDigits (n + 1) = numDigits ((n + 1) / 10) + 1 := by
          conv_lhs => rw [numDigits]
        rw [hnd]
        congr 1
        have hsplit : 10 * ((n + 1) / 10) + (n + 1) % 10 = n + 1 := Nat.div_add_mod _ 10
        have hd : (n + 1) % 10 + 48 - 48 = (n + 1) % 10 := by omega
        rw [hd, pow_succ]
        set P := 10 ^ numDigits ((n + 1) / 10) with hP
        set q := (n + 1) / 10 with hqq
        set r := (n + 1) % 10 with hr
        calc (v * P + q) * 10 + r = v * (P * 10) + (10 * q + r) := by ring
      _ = v * (P * 10) + (n + 1) := by rw [hsplit]

theorem foldDec_decimalBytes (n : Nat) : foldDec 0 (decimalBytes n) = n := by
  by_cases h : n = 0
  · subst h; rfl
  · rw [decimalBytes, if_neg h, decimalBytesAux_foldDec n (Nat.pos_of_ne_zero h)]
    simp [foldDec]

theorem decimalBytesAux_digits : ∀ n (acc : List Nat),
    (∀ b ∈ acc, 48 ≤ b ∧ b ≤ 57) → ∀ b ∈ decimalBytesAux n acc, 48 ≤ b ∧ b ≤ 57 := by
  intro n
  induction n using Nat.strong_induction_on with
  | _ n ih =>
    intro acc hacc
    match n with
    | 0 => rw [decimalBytesAux]; exact hacc
    | n + 1 =>
      rw [decimalBytesAux]
      apply ih _ (by omega)
      intro b hb
      rcases List.mem_cons.mp hb with hb | hb
      · subst hb; omega
      · exact hacc b hb

theorem decimalBytes_digits (n : Nat) : ∀ b ∈ decimalBytes n, 48 ≤ b ∧ b ≤ 57 := by
  rw [decimalBytes]
  split
  · intro b hb; simp at hb; omega
  · exact decimalBytesAux_digits n [] (by simp)

theorem decimalBytesAux_ne_nil : ∀ n (acc : List Nat), 0 < n → decimalBytesAux n acc ≠ [] := by
  intro n
  induction n using Nat.strong_induction_on with
  | _ n ih =>
    intro acc hn
    match n, hn with
    | n + 1, _ =>
      rw [decimalBytesAux]
      by_cases hq : (n + 1) / 10 = 0
      · rw [hq, decimalBytesAux]; simp
      · exact ih _ (by omega) _ (Nat.pos_of_ne_zero hq)

theorem decimalBytes_ne_nil (n : Nat) : decimalBytes n ≠ [] := by
  rw [decimalBytes]
  split
  · simp
  · exact decimalBytesAux_ne_nil n [] (by omega)

theorem dropWhile_zeros_replicate (m : Nat) (x : List Nat) :
    (List.replicate m 0 ++ x).dropWhile (· == 0) = x.dropWhile (· == 0) := by
  induction m with
  | zero => simp
  | succ k ih => rw [List.replicate_succ, List.cons_append, List.dropWhile_cons_of_pos (by simp), ih]

theorem dropTrailingZeros_append_replicate (l : List Nat) (m : Nat) :
    dropTrailingZeros (l ++ List.replicate m 0) = dropTrailingZeros l := by
  unfold dropTrailingZeros
  rw [List.reverse_append, List.reverse_replicate, dropWhile_zeros_replicate]

theorem dropTrailingZeros_of_ne_zero (l : List Nat) (h : ∀ b ∈ l, b ≠ 0) :
    dropTrailingZeros l = l := by
  unfold dropTrailingZeros
  rcases hr : l.reverse with _ | ⟨b, t⟩
  · have hnil : l = [] := List.reverse_eq_nil_iff.mp hr
    subst hnil
    rfl
  · have hb : b ∈ l := by
      have hmem : b ∈ l.reverse := by rw [hr]; exact List.mem_cons_self b t
      exact List.mem_reverse.mp hmem
    have hne : (b == 0) = false := beq_eq_false_iff_ne.mpr (h b hb)
    rw [List.dropWhile_cons_of_neg (by simp [hne])]
    rw [← hr, List.reverse_reverse]

theorem validUtf8_of_ascii : ∀ l : List Nat, (∀ b ∈ l, b ≤ 127) → validUtf8 l = true := by
  intro l
  induction l with
  | nil => intro _; rfl
  | cons b rest ih =>
    intro h
    have hb : b ≤ 127 := h b (List.mem_cons_self b rest)
    have hstep : utf8Next 0 b = 0 := by simp [utf8Next, hb]
    have ih2 := ih fun x hx => h x (List.mem_cons_of_mem b hx)
    rw [validUtf8, List.foldl_cons, hstep]
    exact ih2

theorem rustParseUsize_decimalBytes (n : Nat) (h : n < 2 ^ 64) :
    rustParseUsize (decimalBytes n) = some n := by
  have hdig := decimalBytes_digits n
  have hne := decimalBytes_ne_nil n
  have hfold : foldDec 0 (decimalBytes n) = n := foldDec_decimalBytes n
  rcases hd : decimalBytes n with _ | ⟨b, t⟩
  · exact absurd hd hne
  · rw [hd] at hfold
    obtain ⟨hb1, hb2⟩ := hdig b (by rw [hd]; exact List.mem_cons_self b t)
    have hall : (b :: t).all isDigitByte = true := by
      apply List.all_eq_true.mpr
      intro x hx
      have hx2 := hdig x (by rw [hd]; exact hx)
      simp only [isDigitByte, Bool.and_eq_true, decide_eq_true_eq]
      omega
    have hv : (b :: t).foldl (fun acc x => acc * 10 + (x - 48)) 0 = n := hfold
    interval_cases b <;> simp [rustParseUsize, hall, hv] <;> omega

theorem countBlock_trim (n : Nat) : dropTrailingZeros (countBlock n) = decimalBytes n := by
  rw [countBlock, padTo512, dropTrailingZeros_append_replicate]
  apply dropTrailingZeros_of_ne_zero
  intro b hb
  have := decimalBytes_digits n b hb
  omega

theorem countBlock_valid_utf8 (n : Nat) : validUtf8 (countBlock n) = true := by
  apply validUtf8_of_ascii
  intro b hb
  rw [countBlock, padTo512] at hb
  rcases List.mem_append.mp hb with hb | hb
  · have := decimalBytes_digits n b hb; omega
  · have := List.eq_of_mem_replicate hb; omega

/-- C10: `validate_merkle_archive` never checks the count leaf's logical
position — it only verifies the count leaf's Merkle path and parses its
NUL-trimmed decimal content.  For every hash-function pair there is an
accepted `PartialMerkleArchive` whose count leaf is an authenticated leaf
at logical index 1 (not 0), and its value is used as the header count. -/
theorem c10_count_leaf_position_unchecked (hB : List Nat → Nat) (hP : Nat → Nat → Nat) :
    validate_merkle_archive hB hP (c10Archive hB hP) =
      .ok { headers := [{ name := [97], size := 0 }], files := [] } ∧
    reconstruct_leaf_index (c10Archive hB hP).countLeaf.path = 1 := by
  have hutf : validUtf8 c10CountBlock = true := by
    apply validUtf8_of_ascii
    intro b hb
    rw [c10CountBlock, padTo512] at hb
    rcases List.mem_append.mp hb with hb | hb
    · simp at hb; omega
    · have := List.eq_of_mem_replicate hb; omega
  have hdt : dropTrailingZeros c10CountBlock = [49] := by
    rw [c10CountBlock, padTo512]
    rw [dropTrailingZeros_append_replicate]
    apply dropTrailingZeros_of_ne_zero
    intro b hb
    simp at hb
    omega
  have hdp : rustParseUsize (dropTrailingZeros c10CountBlock) = some 1 := by
    rw [hdt]; decide
  have hph : parse_tar_header c10HeaderBlock = { name := [97], size := 0 } := by decide
  have hcnt : ensure_count_leaf_is_authentic_and_return_count hB hP (c10Archive hB hP) =
      .ok 1 := by
    simp only [ensure_count_leaf_is_authentic_and_return_count, c10Archive,
      verify_merkle_proof, List.foldl_cons, List.foldl_nil, Bool.false_eq_true, if_false,
      beq_self_eq_true, if_true, hutf, hdp]
  have hhdr : ensure_header_leaves_are_authentic_and_parse hB hP (c10Archive hB hP) 1 =
      .ok [{ name := [97], size := 0 }] := by
    simp only [ensure_header_leaves_are_authentic_and_parse, c10Archive, parseHeaderLeaves,
      verify_merkle_proof, List.foldl_cons, List.foldl_nil, List.length_cons, List.length_nil,
      beq_self_eq_true, if_true, hph]
  have huniq : ensure_header_names_are_unique [{ name := [97], size := 0 }] = .ok () := rfl
  have hdep : ensure_dependency_blocks_are_authentic hB hP (c10Archive hB hP)
      [{ name := [97], size := 0 }] = .ok [] := rfl
  refine ⟨?_, ?_⟩
  · simp only [validate_merkle_archive, hcnt, hhdr, huniq, hdep]
  · simp [c10Archive, reconstruct_leaf_index, reconstructGo]

/-! ### Verifier loop lemmas -/

theorem getD_map_of_lt {α β : Type} (f : α → β) (l : List α) (i : Nat) (h : i < l.length)
    (d : α) (d2 : β) : (l.map f).getD i d2 = f (l.getD i d) := by
  rw [List.getD_eq_getElem _ _ (by simpa using h), List.getElem_map,
    List.getD_eq_getElem _ _ h]

theorem verify_merkle_proof_eq (hB : List Nat → Nat) (hP : Nat → Nat → Nat)
    (data : List Nat) (path : List MerklePathNode) (root : Nat) :
    verify_merkle_proof hB hP data path root = (verifyFold hP (hB data) path == root) := rfl

theorem leafAt_verify (hB : List Nat → Nat) (hP : Nat → Nat → Nat)
    (raw : List (List Nat)) (i : Nat) (hi : i < raw.length) :
    verify_merkle_proof hB hP (leafAt hP (raw.map hB) raw i).data
      (leafAt hP (raw.map hB) raw i).path
      (merkleRoot (buildLayers hP (raw.map hB))) = true := by
  have hlen : i < (raw.map hB).length := by simpa using hi
  have hspec := (pathFor_spec hP (raw.map hB).length (raw.map hB) rfl i hlen).1
  have hgd : (raw.map hB).getD i 0 = hB (raw.getD i []) := getD_map_of_lt hB raw i hi [] 0
  rw [leafAt, verify_merkle_proof_eq]
  simp only [← hgd, hspec, beq_self_eq_true]

theorem leafAt_recon (hB : List Nat → Nat) (hP : Nat → Nat → Nat)
    (raw : List (List Nat)) (i : Nat) (hi : i < raw.length) :
    reconstruct_leaf_index (leafAt hP (raw.map hB) raw i).path = i := by
  have hlen : i < (raw.map hB).length := by simpa using hi
  have hspec := (pathFor_spec hP (raw.map hB).length (raw.map hB) rfl i hlen).2
  rw [leafAt, reconstruct_leaf_index_eq]
  exact hspec

theorem parseHeaderLeaves_ok (hB : List Nat → Nat) (hP : Nat → Nat → Nat) (root : Nat) :
    ∀ leaves : List MerkleLeaf,
      (∀ l ∈ leaves, verify_merkle_proof hB hP l.data l.path root = true) →
      parseHeaderLeaves hB hP root leaves =
        .ok (leaves.map fun l => parse_tar_header l.data) := by
  intro leaves
  induction leaves with
  | nil => intro _; rfl
  | cons leaf rest ih =>
    intro h
    rw [parseHeaderLeaves, if_pos (h leaf (List.mem_cons_self leaf rest)),
      ih fun l hl => h l (List.mem_cons_of_mem leaf hl)]
    rfl

theorem consumeBlocks_ok (hB : List Nat → Nat) (hP : Nat → Nat → Nat) (root hIdx : Nat) :
    ∀ (seg rest : List MerkleLeaf) (offset : Nat) (buf : List Nat),
      (∀ k, k < seg.length →
        verify_merkle_proof hB hP (seg.getD k default).data (seg.getD k default).path root =
          true ∧
        reconstruct_leaf_index (seg.getD k default).path = hIdx + (offset + k)) →
      consumeBlocks hB hP root hIdx seg.length offset (seg ++ rest) buf =
        .ok (buf ++ (seg.map (fun l => l.data)).flatten, rest) := by
  intro seg
  induction seg with
  | nil =>
    intro rest offset buf _
    simp [consumeBlocks]
  | cons leaf seg ih =>
    intro rest offset buf h
    have h0 := h 0 (by simp)
    simp only [List.getD_cons_zero] at h0
    rw [List.length_cons, List.cons_append, consumeBlocks, if_pos h0.1]
    have hrecon : (reconstruct_leaf_index leaf.path == hIdx + offset) = true := by
      rw [h0.2]
      simp
    rw [if_pos hrecon]
    have hshift : ∀ k, k < seg.length →
        verify_merkle_proof hB hP (seg.getD k default).data (seg.getD k default).path root =
          true ∧
        reconstruct_leaf_index (seg.getD k default).path = hIdx + (offset + 1 + k) := by
      intro k hk
      have := h (k + 1) (by simp; omega)
      simp only [List.getD_cons_succ] at this
      refine ⟨this.1, ?_⟩
      rw [this.2]
      omega
    rw [ih rest (offset + 1) (buf ++ leaf.data) hshift]
    simp

theorem depBlocksGo_ok (hB : List Nat → Nat) (hP : Nat → Nat → Nat) (root : Nat)
    (headers : List TarHeader) (headerLeaves : List MerkleLeaf) :
    ∀ (idxs : List Nat) (segs : List (List MerkleLeaf)),
      idxs.length = segs.length →
      (∀ j, j < idxs.length →
        (segs.getD j []).length = block_count (headers.getD (idxs.getD j 0) default).size ∧
        ∀ k, k < (segs.getD j []).length →
          verify_merkle_proof hB hP ((segs.getD j []).getD k default).data
            ((segs.getD j []).getD k default).path root = true ∧
          reconstruct_leaf_index ((segs.getD j []).getD k default).path =
            reconstruct_leaf_index
              (headerLeaves.getD (idxs.getD j 0) default).path + (1 + k)) →
      depBlocksGo hB hP root headers headerLeaves idxs segs.flatten =
        .ok ((idxs.zip segs).map (fun pr =>
          { header := headers.getD pr.1 default
            bytes := ((pr.2.map (fun l => l.data)).flatten).take
              (headers.getD pr.1 default).size }), []) := by
  intro idxs
  induction idxs with
  | nil =>
    intro segs hlen _
    rcases segs with _ | ⟨a, b⟩
    · rfl
    · simp at hlen
  | cons p idxs ih =>
    intro segs hlen h
    rcases segs with _ | ⟨seg, segs⟩
    · simp at hlen
    · have h0 := h 0 (by simp)
      simp only [List.getD_cons_zero] at h0
      rw [List.flatten_cons, depBlocksGo]
      have hneed : block_count (headers.getD p default).size = seg.length := h0.1.symm
      rw [hneed]
      have hcons := consumeBlocks_ok hB hP root
        (reconstruct_leaf_index (headerLeaves.getD p default).path)
        seg segs.flatten 1 [] (by
          intro k hk
          have := h0.2 k hk
          exact ⟨this.1, by rw [this.2]⟩)
      simp only [hcons]
      have hshift : ∀ j, j < idxs.length →
          (segs.getD j []).length = block_count (headers.getD (idxs.getD j 0) default).size ∧
          ∀ k, k < (segs.getD j []).length →
            verify_merkle_proof hB hP ((segs.getD j []).getD k default).data
              ((segs.getD j []).getD k default).path root = true ∧
            reconstruct_leaf_index ((segs.getD j []).getD k default).path =
              reconstruct_leaf_index
                (headerLeaves.getD (idxs.getD j 0) default).path + (1 + k) := by
        intro j hj
        have := h (j + 1) (by simp; omega)
        simpa only [List.getD_cons_succ] using this
      simp only [ih segs (by simpa using hlen) hshift, List.zip_cons_cons, List.map_cons]
      simp

theorem namesUniqueGo_ok : ∀ (headers : List TarHeader) (seen : List (List Nat)),
    (headers.map (fun h => h.name)).Nodup → (∀ h ∈ headers, h.name ∉ seen) →
    namesUniqueGo seen headers = .ok () := by
  intro headers
  induction headers with
  | nil => intro seen _ _; rfl
  | cons hdr rest ih =>
    intro seen hnd hseen
    have hmem : hdr.name ∉ seen := hseen hdr (List.mem_cons_self hdr rest)
    have hcont : seen.contains hdr.name = false := by
      simpa using hmem
    rw [namesUniqueGo, hcont]
    simp only [Bool.false_eq_true, if_false]
    apply ih
    · simpa using hnd.of_cons
    · intro h hh
      simp only [List.map_cons, List.nodup_cons] at hnd
      intro hin
      rcases List.mem_cons.mp hin with heq | hin2
      · exact hnd.1 (heq ▸ List.mem_map_of_mem (fun x => x.name) hh)
      · exact hseen h (List.mem_cons_of_mem hdr hh) hin2

/-! ### The builder's output, in closed form -/

theorem build_archive_eq (hB : List Nat → Nat) (hP : Nat → Nat → Nat)
    (pms : PackageManagerSpec) (entries : List TarEntry) :
    build_merkle_archive hB hP pms entries =
      { resolvedWith := pms
        rootHash := merkleRoot (buildLayers hP
          ((countBlock entries.length :: bodyBlocks entries).map hB))
        countLeaf :=
          { data := countBlock entries.length
            path := pathFor (buildLayers hP
              ((countBlock entries.length :: bodyBlocks entries).map hB)) 0 }
        headerLeaves := (hdrIdxList 1 entries).map
          (leafAt hP ((countBlock entries.length :: bodyBlocks entries).map hB)
            (countBlock entries.length :: bodyBlocks entries))
        dependencyFileLeaves := (depRawList 1 entries).map
          (leafAt hP ((countBlock entries.length :: bodyBlocks entries).map hB)
            (countBlock entries.length :: bodyBlocks entries))
        dependencyFileHeaderIndices := depHdrList 0 entries } := by
  rw [build_merkle_archive, scanEntries_spec]
  simp only [List.singleton_append, List.nil_append, List.length_singleton, List.length_nil,
    List.set_cons_zero, hdrIdxList_length, leafAt]
  rfl

theorem getD_mem {α : Type} (l : List α) (n : Nat) (d : α) (h : n < l.length) :
    l.getD n d ∈ l := by
  rw [List.getD_eq_getElem _ _ h]
  exact List.getElem_mem ..

theorem range_map_getD {α : Type} (l : List α) (d : α) :
    (List.range l.length).map (fun k => l.getD k d) = l := by
  apply List.ext_getElem
  · simp
  · intro i h1 h2
    simp only [List.getElem_map, List.getElem_range]
    rw [List.getD_eq_getElem _ _ h2]

theorem depSched_map_entry (entries : List TarEntry) :
    ∀ pos base, (depSched pos base entries).map (fun t => t.2.2) =
      entries.filter (fun e => isDepHeader e.header) := by
  induction entries with
  | nil => intro pos base; rfl
  | cons e rest ih =>
    intro pos base
    rw [depSched, List.filter_cons]
    by_cases hdep : isDepHeader e.header
    · rw [if_pos hdep, if_pos hdep]
      simp only [List.map_append, List.map_cons, List.map_nil, List.cons_append,
        List.nil_append]
      rw [ih]
    · rw [if_neg hdep, if_neg hdep, List.nil_append]
      exact ih (pos + 1) (base + entryLen e)

theorem hdrIdxList_mem (entries : List TarEntry) :
    ∀ base x, x ∈ hdrIdxList base entries →
      ∃ j, j < entries.length ∧ x = base + relHdrIdx entries j := by
  induction entries with
  | nil => intro base x hx; simp [hdrIdxList] at hx
  | cons e rest ih =>
    intro base x hx
    rw [hdrIdxList] at hx
    rcases List.mem_cons.mp hx with hx | hx
    · exact ⟨0, by simp, by simp [hx, relHdrIdx_zero]⟩
    · obtain ⟨j, hj, hxe⟩ := ih (base + entryLen e) x hx
      exact ⟨j + 1, by simp; omega, by rw [hxe, relHdrIdx_succ]; omega⟩

theorem entryLen_pos (e : TarEntry) : 1 ≤ entryLen e := by
  rw [entryLen]; omega

theorem raw_length (entries : List TarEntry) :
    (countBlock entries.length :: bodyBlocks entries).length =
      1 + (entries.map entryLen).sum := by
  rw [List.length_cons, bodyBlocks_length]; omega

theorem hdr_idx_lt (entries : List TarEntry) (j : Nat) (hj : j < entries.length) :
    1 + relHdrIdx entries j < (countBlock entries.length :: bodyBlocks entries).length := by
  rw [raw_length]
  have h1 := relHdrIdx_bound entries j hj
  have h2 := entryLen_pos (entries.getD j default)
  omega

theorem data_idx_lt (entries : List TarEntry) (j k : Nat) (hj : j < entries.length)
    (hk : k < (chunk512 (entries.getD j default).content).length) :
    1 + relHdrIdx entries j + 1 + k <
      (countBlock entries.length :: bodyBlocks entries).length := by
  rw [raw_length]
  have h1 := relHdrIdx_bound entries j hj
  have h2 : entryLen (entries.getD j default) =
      1 + (chunk512 (entries.getD j default).content).length := rfl
  omega

theorem raw_getD_hdr (entries : List TarEntry) (j : Nat) (hj : j < entries.length) :
    (countBlock entries.length :: bodyBlocks entries).getD (1 + relHdrIdx entries j) [] =
      (entries.getD j default).header := by
  have h1 : 1 + relHdrIdx entries j = relHdrIdx entries j + 1 := by omega
  rw [h1, List.getD_cons_succ]
  exact body_getD_hdr entries j hj

theorem raw_getD_data (entries : List TarEntry) (j k : Nat) (hj : j < entries.length)
    (hk : k < (chunk512 (entries.getD j default).content).length) :
    (countBlock entries.length :: bodyBlocks entries).getD (1 + relHdrIdx entries j + 1 + k)
        [] = (chunk512 (entries.getD j default).content).getD k [] := by
  have h1 : 1 + relHdrIdx entries j + 1 + k = (relHdrIdx entries j + 1 + k) + 1 := by omega
  rw [h1, List.getD_cons_succ]
  exact body_getD_data entries j k hj hk

/-! ### Validation of an honestly built archive, phase by phase -/

theorem built_count_ok (hB : List Nat → Nat) (hP : Nat → Nat → Nat)
    (pms : PackageManagerSpec) (entries : List TarEntry)
    (hc : entries.length < 2 ^ 64) :
    ensure_count_leaf_is_authentic_and_return_count hB hP
      (build_merkle_archive hB hP pms entries) = .ok entries.length := by
  rw [build_archive_eq, ensure_count_leaf_is_authentic_and_return_count]
  have hpos : 0 < (countBlock entries.length :: bodyBlocks entries).length := by simp
  have hv : verify_merkle_proof hB hP (countBlock entries.length)
      (pathFor (buildLayers hP
        ((countBlock entries.length :: bodyBlocks entries).map hB)) 0)
      (merkleRoot (buildLayers hP
        ((countBlock entries.length :: bodyBlocks entries).map hB))) = true :=
    leafAt_verify hB hP (countBlock entries.length :: bodyBlocks entries) 0 hpos
  rw [if_pos hv, if_pos (countBlock_valid_utf8 entries.length), countBlock_trim,
    rustParseUsize_decimalBytes entries.length hc]

theorem built_headers_ok (hB : List Nat → Nat) (hP : Nat → Nat → Nat)
    (pms : PackageManagerSpec) (entries : List TarEntry) :
    ensure_header_leaves_are_authentic_and_parse hB hP
      (build_merkle_archive hB hP pms entries) entries.length =
      .ok (entries.map (fun e => parse_tar_header e.header)) := by
  rw [build_archive_eq, ensure_header_leaves_are_authentic_and_parse]
  have hlen : ((hdrIdxList 1 entries).map
      (leafAt hP ((countBlock entries.length :: bodyBlocks entries).map hB)
        (countBlock entries.length :: bodyBlocks entries))).length = entries.length := by
    rw [List.length_map, hdrIdxList_length]
  simp only [hlen, beq_self_eq_true, if_true]
  rw [parseHeaderLeaves_ok]
  · congr 1
    apply List.ext_getElem
    · simp [hdrIdxList_length]
    · intro i h1 h2
      simp only [List.getElem_map]
      have hi : i < entries.length := by simpa using h2
      have hil : i < (hdrIdxList 1 entries).length := by
        rw [hdrIdxList_length]; exact hi
      have hidx : (hdrIdxList 1 entries)[i] = 1 + relHdrIdx entries i := by
        rw [← List.getD_eq_getElem _ 0 (by rw [hdrIdxList_length]; exact hi)]
        exact hdrIdxList_getD entries 1 i hi
      rw [hidx, leafAt]
      have hdr := raw_getD_hdr entries i hi
      simp only [hdr]
      congr 1
      rw [← List.getD_eq_getElem _ default hi]
  · intro l hl
    obtain ⟨i, hi, rfl⟩ := List.mem_map.mp hl
    obtain ⟨j, hj, rfl⟩ := hdrIdxList_mem entries 1 i hi
    exact leafAt_verify hB hP _ _ (hdr_idx_lt entries j hj)

theorem built_depLeaves_eq (hB : List Nat → Nat) (hP : Nat → Nat → Nat)
    (entries : List TarEntry) :
    (depRawList 1 entries).map
      (leafAt hP ((countBlock entries.length :: bodyBlocks entries).map hB)
        (countBlock entries.length :: bodyBlocks entries)) =
      ((depSched 0 1 entries).map (segOf hB hP entries)).flatten := by
  rw [depRawList_eq entries 0 1, List.map_flatten, List.map_map]
  congr 1
  apply List.map_congr_left
  intro t _
  simp only [Function.comp, segOf, List.map_map]
  rfl

theorem sched_facts (hB : List Nat → Nat) (hP : Nat → Nat → Nat) (entries : List TarEntry)
    (hs : ∀ e ∈ entries, parse_octal (sizeField e.header) = e.content.length)
    (t : Nat × Nat × TarEntry) (ht : t ∈ depSched 0 1 entries) :
    t.1 < entries.length ∧
    entries.getD t.1 default = t.2.2 ∧
    t.2.1 = 1 + relHdrIdx entries t.1 ∧
    (parse_tar_header t.2.2.header).size = t.2.2.content.length := by
  obtain ⟨j, hj, hdep, hteq⟩ := depSched_mem entries 0 1 t ht
  have h1 : t.1 < entries.length := by rw [hteq]; simpa using hj
  have h2 : entries.getD t.1 default = t.2.2 := by rw [hteq]; simp
  have h3 : t.2.1 = 1 + relHdrIdx entries t.1 := by rw [hteq]; simp
  have h4 : (parse_tar_header t.2.2.header).size = t.2.2.content.length := by
    rw [hteq]
    exact hs _ (getD_mem entries j default hj)
  exact ⟨h1, h2, h3, h4⟩

theorem seg_k_facts (hB : List Nat → Nat) (hP : Nat → Nat → Nat) (entries : List TarEntry)
    (hs : ∀ e ∈ entries, parse_octal (sizeField e.header) = e.content.length)
    (t : Nat × Nat × TarEntry) (ht : t ∈ depSched 0 1 entries) (k : Nat)
    (hk : k < (chunk512 t.2.2.content).length) :
    (segOf hB hP entries t).getD k default =
      leafAt hP ((countBlock entries.length :: bodyBlocks entries).map hB)
        (countBlock entries.length :: bodyBlocks entries) (t.2.1 + 1 + k) ∧
    t.2.1 + 1 + k < (countBlock entries.length :: bodyBlocks entries).length := by
  obtain ⟨h1, h2, h3, _⟩ := sched_facts hB hP entries hs t ht
  constructor
  · rw [segOf, getD_map_of_lt _ _ k (by simpa using hk) 0 default]
    congr 1
    rw [List.getD_eq_getElem _ _ (by simpa using hk), List.getElem_range]
  · rw [h3]
    have := data_idx_lt entries t.1 k h1 (by rw [h2]; exact hk)
    omega

theorem built_deps_ok (hB : List Nat → Nat) (hP : Nat → Nat → Nat)
    (pms : PackageManagerSpec) (entries : List TarEntry)
    (hs : ∀ e ∈ entries, parse_octal (sizeField e.header) = e.content.length) :
    ensure_dependency_blocks_are_authentic hB hP (build_merkle_archive hB hP pms entries)
      (entries.map (fun e => parse_tar_header e.header)) =
      .ok ((entries.filter (fun e => isDepHeader e.header)).map
        (fun e => { header := parse_tar_header e.header, bytes := e.content })) := by
  rw [build_archive_eq, ensure_dependency_blocks_are_authentic]
  have hidxall : (depHdrList 0 entries).all
      (fun idx => decide (idx < (entries.map fun e => parse_tar_header e.header).length)) =
      true := by
    apply List.all_eq_true.mpr
    intro p hp
    rw [depHdrList_eq entries 0 1] at hp
    obtain ⟨t, ht, rfl⟩ := List.mem_map.mp hp
    obtain ⟨h1, _, _, _⟩ := sched_facts hB hP entries hs t ht
    simpa using h1
  rw [if_pos hidxall]
  have hleq := built_depLeaves_eq hB hP entries
  have hperseg : ∀ t ∈ depSched 0 1 entries,
      (segOf hB hP entries t).length =
        block_count
          ((entries.map fun e => parse_tar_header e.header).getD t.1 default).size := by
    intro t ht
    obtain ⟨h1, h2, h3, h4⟩ := sched_facts hB hP entries hs t ht
    rw [segOf, List.length_map, List.length_range,
      getD_map_of_lt _ _ _ h1 default default, h2, h4, chunk512_length]
  have hsum : ((depRawList 1 entries).map
      (leafAt hP ((countBlock entries.length :: bodyBlocks entries).map hB)
        (countBlock entries.length :: bodyBlocks entries))).length =
      ((depHdrList 0 entries).map (fun i =>
        block_count ((entries.map fun e => parse_tar_header e.header).getD i default).size)).sum := by
    rw [hleq, List.length_flatten, List.map_map, depHdrList_eq entries 0 1, List.map_map]
    congr 1
    apply List.map_congr_left
    intro t ht
    simp only [Function.comp]
    exact hperseg t ht
  rw [hsum]
  simp only [beq_self_eq_true, if_true]
  have hgo := depBlocksGo_ok hB hP
    (merkleRoot (buildLayers hP ((countBlock entries.length :: bodyBlocks entries).map hB)))
    (entries.map fun e => parse_tar_header e.header)
    ((hdrIdxList 1 entries).map
      (leafAt hP ((countBlock entries.length :: bodyBlocks entries).map hB)
        (countBlock entries.length :: bodyBlocks entries)))
    ((depSched 0 1 entries).map (fun t => t.1))
    ((depSched 0 1 entries).map (segOf hB hP entries))
    (by simp)
    (by
      intro j hj
      have hjl : j < (depSched 0 1 entries).length := by simpa using hj
      have ht : (depSched 0 1 entries).getD j default ∈ depSched 0 1 entries :=
        getD_mem _ _ _ hjl
      obtain ⟨h1, h2, h3, h4⟩ :=
        sched_facts hB hP entries hs ((depSched 0 1 entries).getD j default) ht
      have hidxj : (((depSched 0 1 entries).map (fun t => t.1)).getD j 0) =
          ((depSched 0 1 entries).getD j default).1 :=
        getD_map_of_lt _ _ _ hjl default 0
      have hsegj : (((depSched 0 1 entries).map (segOf hB hP entries)).getD j []) =
          segOf hB hP entries ((depSched 0 1 entries).getD j default) :=
        getD_map_of_lt _ _ _ hjl default []
      have hseglen : (segOf hB hP entries ((depSched 0 1 entries).getD j default)).length =
          (chunk512 ((depSched 0 1 entries).getD j default).2.2.content).length := by
        rw [segOf, List.length_map, List.length_range]
      constructor
      · rw [hsegj, hidxj]
        exact hperseg _ ht
      · intro k hk
        rw [hsegj] at hk ⊢
        rw [hseglen] at hk
        obtain ⟨hseg_eq, hbound⟩ := seg_k_facts hB hP entries hs _ ht k hk
        rw [hidxj, hseg_eq]
        have hhl : (((hdrIdxList 1 entries).map
            (leafAt hP ((countBlock entries.length :: bodyBlocks entries).map hB)
              (countBlock entries.length :: bodyBlocks entries))).getD
            ((depSched 0 1 entries).getD j default).1 default) =
            leafAt hP ((countBlock entries.length :: bodyBlocks entries).map hB)
              (countBlock entries.length :: bodyBlocks entries)
              ((depSched 0 1 entries).getD j default).2.1 := by
          rw [getD_map_of_lt _ _ _ (by rw [hdrIdxList_length]; exact h1) 0 default,
            hdrIdxList_getD entries 1 _ h1, ← h3]
        rw [hhl]
        constructor
        · exact leafAt_verify hB hP _ _ hbound
        · rw [leafAt_recon hB hP _ _ hbound]
          have hhdr_lt : ((depSched 0 1 entries).getD j default).2.1 <
              (countBlock entries.length :: bodyBlocks entries).length := by
            rw [h3]
            exact hdr_idx_lt entries _ h1
          rw [leafAt_recon hB hP _ _ hhdr_lt]
          omega)
  rw [depHdrList_eq entries 0 1, hleq, hgo]
  simp only []
  congr 1
  rw [List.zip_map', List.map_map, ← depSched_map_entry entries 0 1, List.map_map]
  apply List.map_congr_left
  intro t ht
  obtain ⟨h1, h2, h3, h4⟩ := sched_facts hB hP entries hs t ht
  simp only [Function.comp]
  have hhdr : (entries.map fun e => parse_tar_header e.header).getD t.1 default =
      parse_tar_header t.2.2.header := by
    rw [getD_map_of_lt _ _ _ h1 default default, h2]
  have hbytes : ((segOf hB hP entries t).map (fun l => l.data)).flatten =
      (chunk512 t.2.2.content).flatten := by
    rw [segOf, List.map_map]
    congr 1
    have hmapped : (List.range (chunk512 t.2.2.content).length).map
        ((fun l => l.data) ∘ (fun k =>
          leafAt hP ((countBlock entries.length :: bodyBlocks entries).map hB)
            (countBlock entries.length :: bodyBlocks entries) (t.2.1 + 1 + k))) =
        (List.range (chunk512 t.2.2.content).length).map
          (fun k => (chunk512 t.2.2.content).getD k []) := by
      apply List.map_congr_left
      intro k hk
      have hk2 : k < (chunk512 t.2.2.content).length := by simpa using hk
      simp only [Function.comp, leafAt]
      rw [h3]
      have hd := raw_getD_data entries t.1 k h1 (by rw [h2]; exact hk2)
      rw [hd, h2]
    rw [hmapped, range_map_getD]
  rw [hhdr, hbytes, h4, chunk512_join_take]

theorem dup_entries_reject (hB : List Nat → Nat) (hP : Nat → Nat → Nat) :
    validate_merkle_archive hB hP
      (build_merkle_archive hB hP ⟨.Cargo, ⟨1, 51, 0⟩⟩ [c1DupEntry, c1DupEntry]) =
      .error .InvalidMerkleArchive := by
  have hcnt := built_count_ok hB hP ⟨.Cargo, ⟨1, 51, 0⟩⟩ [c1DupEntry, c1DupEntry]
    (by norm_num)
  have hh := built_headers_ok hB hP ⟨.Cargo, ⟨1, 51, 0⟩⟩ [c1DupEntry, c1DupEntry]
  have hph : parse_tar_header c1DupEntry.header = { name := [97], size := 0 } := by decide
  have hnames : ensure_header_names_are_unique
      ([c1DupEntry, c1DupEntry].map (fun e => parse_tar_header e.header)) =
      .error .InvalidMerkleArchive := by
    rw [List.map_cons, List.map_cons, List.map_nil, hph]
    rfl
  simp only [validate_merkle_archive, hcnt, hh, hnames]

/-- C1 (counterexample): the claim quantifies over every source bundle on
which the builder succeeds.  A TAR with two identically-named entries
builds fine, but validation rejects it at the duplicate-name check, so the
round-trip fails. -/
theorem c1_duplicate_names_counterexample :
    validate_merkle_archive hB0 hP0
      (build_merkle_archive hB0 hP0 ⟨.Cargo, ⟨1, 51, 0⟩⟩ [c1DupEntry, c1DupEntry]) =
      .error .InvalidMerkleArchive :=
  dup_entries_reject hB0 hP0

/-- C1 (amended): the round-trip holds for every bundle on which the
builder succeeds *and whose entries have pairwise-distinct decoded names*.
The other two hypotheses are facts guaranteed by a successful build: the
tar reader only yields entries whose octal size field parses to the
content length, and the entry count is a `usize`.  Validation then
succeeds, the header list is exactly the parsed entry headers, its length
equals the decimal value stored in the count leaf, and each returned
file's bytes are the entry's content (content truncated to the header's
size, which the size hypothesis makes the full content). -/
theorem c1_build_validate_roundtrip (hB : List Nat → Nat) (hP : Nat → Nat → Nat)
    (pms : PackageManagerSpec) (entries : List TarEntry)
    (hs : ∀ e ∈ entries, parse_octal (sizeField e.header) = e.content.length)
    (hn : (entries.map (fun e => (parse_tar_header e.header).name)).Nodup)
    (hc : entries.length < 2 ^ 64) :
    validate_merkle_archive hB hP (build_merkle_archive hB hP pms entries) =
      .ok { headers := entries.map (fun e => parse_tar_header e.header)
            files := (entries.filter (fun e => isDepHeader e.header)).map
              (fun e => { header := parse_tar_header e.header, bytes := e.content }) } ∧
    (entries.map (fun e => parse_tar_header e.header)).length = entries.length ∧
    rustParseUsize (dropTrailingZeros
      (build_merkle_archive hB hP pms entries).countLeaf.data) = some entries.length := by
  have hcnt := built_count_ok hB hP pms entries hc
  have hh := built_headers_ok hB hP pms entries
  have hnames : ensure_header_names_are_unique
      (entries.map (fun e => parse_tar_header e.header)) = .ok () := by
    apply namesUniqueGo_ok
    · rw [List.map_map]
      exact hn
    · simp
  have hdeps := built_deps_ok hB hP pms entries hs
  refine ⟨?_, by simp, ?_⟩
  · simp only [validate_merkle_archive, hcnt, hh, hnames, hdeps]
  · rw [build_archive_eq]
    simp only []
    rw [countBlock_trim, rustParseUsize_decimalBytes entries.length hc]

/-- C1 witness: the amended round-trip evaluated on a one-entry bundle. -/
theorem c1_build_validate_roundtrip_witness :
    validate_merkle_archive hB0 hP0
      (build_merkle_archive hB0 hP0 ⟨.Cargo, ⟨1, 51, 0⟩⟩ [c1DupEntry]) =
      .ok { headers := [c1DupEntry].map (fun e => parse_tar_header e.header)
            files := ([c1DupEntry].filter (fun e => isDepHeader e.header)).map
              (fun e => { header := parse_tar_header e.header, bytes := e.content }) } ∧
    ([c1DupEntry].map (fun e => parse_tar_header e.header)).length = [c1DupEntry].length ∧
    rustParseUsize (dropTrailingZeros
      (build_merkle_archive hB0 hP0 ⟨.Cargo, ⟨1, 51, 0⟩⟩ [c1DupEntry]).countLeaf.data) =
      some [c1DupEntry].length :=
  c1_build_validate_roundtrip hB0 hP0 ⟨.Cargo, ⟨1, 51, 0⟩⟩ [c1DupEntry]
    (by decide) (by decide) (by norm_num)

/-! ### Every verifier rejection carries the InvalidMerkleArchive kind -/

theorem count_err_kind (hB : List Nat → Nat) (hP : Nat → Nat → Nat)
    (a : PartialMerkleArchive) (e : ScaError)
    (h : ensure_count_leaf_is_authentic_and_return_count hB hP a = .error e) :
    e = .InvalidMerkleArchive := by
  rw [ensure_count_leaf_is_authentic_and_return_count] at h
  split at h
  · split at h
    · split at h
      · simp at h
      · injection h with h2; exact h2.symm
    · injection h with h2; exact h2.symm
  · injection h with h2; exact h2.symm

theorem parseHeaderLeaves_err_kind (hB : List Nat → Nat) (hP : Nat → Nat → Nat)
    (root : Nat) : ∀ (leaves : List MerkleLeaf) (e : ScaError),
    parseHeaderLeaves hB hP root leaves = .error e → e = .InvalidMerkleArchive := by
  intro leaves
  induction leaves with
  | nil => intro e h; simp [parseHeaderLeaves] at h
  | cons leaf rest ih =>
    intro e h
    rw [parseHeaderLeaves] at h
    split at h
    · split at h
      · simp at h
      · rename_i e2 he2
        injection h with h2
        subst h2
        exact ih _ he2
    · injection h with h2; exact h2.symm

theorem headers_err_kind (hB : List Nat → Nat) (hP : Nat → Nat → Nat)
    (a : PartialMerkleArchive) (n : Nat) (e : ScaError)
    (h : ensure_header_leaves_are_authentic_and_parse hB hP a n = .error e) :
    e = .InvalidMerkleArchive := by
  rw [ensure_header_leaves_are_authentic_and_parse] at h
  split at h
  · exact parseHeaderLeaves_err_kind hB hP _ _ _ h
  · injection h with h2; exact h2.symm

theorem namesUniqueGo_err_kind : ∀ (headers : List TarHeader) (seen : List (List Nat))
    (e : ScaError), namesUniqueGo seen headers = .error e → e = .InvalidMerkleArchive := by
  intro headers
  induction headers with
  | nil => intro seen e h; simp [namesUniqueGo] at h
  | cons hdr rest ih =>
    intro seen e h
    rw [namesUniqueGo] at h
    split at h
    · injection h with h2; exact h2.symm
    · exact ih _ _ h

theorem consumeBlocks_err_kind (hB : List Nat → Nat) (hP : Nat → Nat → Nat)
    (root hIdx : Nat) : ∀ (needed offset : Nat) (stream : List MerkleLeaf)
    (buf : List Nat) (e : ScaError),
    consumeBlocks hB hP root hIdx needed offset stream buf = .error e →
    e = .InvalidMerkleArchive := by
  intro needed
  induction needed with
  | zero => intro offset stream buf e h; simp [consumeBlocks] at h
  | succ n ih =>
    intro offset stream buf e h
    match stream with
    | [] =>
      rw [consumeBlocks] at h
      injection h with h2; exact h2.symm
    | leaf :: rest =>
      rw [consumeBlocks] at h
      split at h
      · split at h
        · exact ih _ _ _ _ h
        · injection h with h2; exact h2.symm
      · injection h with h2; exact h2.symm

theorem depBlocksGo_err_kind (hB : List Nat → Nat) (hP : Nat → Nat → Nat) (root : Nat)
    (headers : List TarHeader) (headerLeaves : List MerkleLeaf) :
    ∀ (idxs : List Nat) (stream : List MerkleLeaf) (e : ScaError),
    depBlocksGo hB hP root headers headerLeaves idxs stream = .error e →
    e = .InvalidMerkleArchive := by
  intro idxs
  induction idxs with
  | nil => intro stream e h; simp [depBlocksGo] at h
  | cons p rest ih =>
    intro stream e h
    rw [depBlocksGo] at h
    split at h
    · rename_i he
      injection h with h2
      subst h2
      exact consumeBlocks_err_kind hB hP _ _ _ _ _ _ _ he
    · split at h
      · rename_i he
        injection h with h2
        subst h2
        exact ih _ _ he
      · simp at h

theorem deps_err_kind (hB : List Nat → Nat) (hP : Nat → Nat → Nat)
    (a : PartialMerkleArchive) (headers : List TarHeader) (e : ScaError)
    (h : ensure_dependency_blocks_are_authentic hB hP a headers = .error e) :
    e = .InvalidMerkleArchive := by
  rw [ensure_dependency_blocks_are_authentic] at h
  split at h
  · split at h
    · split at h
      · rename_i he2
        injection h with h2
        subst h2
        exact depBlocksGo_err_kind hB hP _ _ _ _ _ _ he2
      · simp at h
      · injection h with h2; exact h2.symm
    · injection h with h2; exact h2.symm
  · injection h with h2; exact h2.symm

theorem validate_err_kind (hB : List Nat → Nat) (hP : Nat → Nat → Nat)
    (a : PartialMerkleArchive) (e : ScaError)
    (h : validate_merkle_archive hB hP a = .error e) : e = .InvalidMerkleArchive := by
  rw [validate_merkle_archive] at h
  split at h
  · rename_i he
    injection h with h2
    subst h2
    exact count_err_kind hB hP a _ he
  · split at h
    · rename_i he
      injection h with h2
      subst h2
      exact headers_err_kind hB hP a _ _ he
    · split at h
      · rename_i he
        injection h with h2
        subst h2
        exact namesUniqueGo_err_kind _ _ _ he
      · split at h
        · rename_i he
          injection h with h2
          subst h2
          exact deps_err_kind hB hP a _ _ he
        · simp at h

/-! ### Inversion: what a successful dependency walk guarantees -/

theorem listSwap_length {α : Type} [Inhabited α] (l : List α) (p q : Nat) :
    (listSwap l p q).length = l.length := by
  simp [listSwap]

theorem listSwap_getD_left {α : Type} [Inhabited α] (l : List α) (p q : Nat)
    (hp : p < l.length) (hq : q < l.length) (hne : p ≠ q) :
    (listSwap l p q).getD p default = l.getD q default := by
  rw [listSwap, List.getD_eq_getElem _ _ (by simpa using hp)]
  rw [List.getElem_set_ne (by omega)]
  rw [List.getElem_set_self (by simpa using hp)]

theorem consumeBlocks_ok_inv (hB : List Nat → Nat) (hP : Nat → Nat → Nat)
    (root hIdx : Nat) : ∀ (needed offset : Nat) (stream : List MerkleLeaf)
    (buf : List Nat) (out : List Nat × List MerkleLeaf),
    consumeBlocks hB hP root hIdx needed offset stream buf = .ok out →
    needed ≤ stream.length ∧ out.2 = stream.drop needed ∧
    ∀ k, k < needed →
      reconstruct_leaf_index ((stream.getD k default).path) = hIdx + (offset + k) := by
  intro needed
  induction needed with
  | zero =>
    intro offset stream buf out h
    rw [consumeBlocks] at h
    injection h with h2
    subst h2
    exact ⟨Nat.zero_le _, by simp, fun k hk => by omega⟩
  | succ n ih =>
    intro offset stream buf out h
    match stream with
    | [] =>
      rw [consumeBlocks] at h
      exact absurd h (by simp)
    | leaf :: rest =>
      rw [consumeBlocks] at h
      split at h
      · split at h
        · rename_i hv hr
          obtain ⟨ih1, ih2, ih3⟩ := ih _ _ _ _ h
          refine ⟨by simp; omega, by simpa using ih2, ?_⟩
          intro k hk
          match k with
          | 0 =>
            simp only [List.getD_cons_zero]
            rw [eq_of_beq hr]
            omega
          | k + 1 =>
            simp only [List.getD_cons_succ]
            rw [ih3 k (by omega)]
            omega
        · exact absurd h (by simp)
      · exact absurd h (by simp)

theorem depBlocksGo_ok_inv (hB : List Nat → Nat) (hP : Nat → Nat → Nat) (root : Nat)
    (headers : List TarHeader) (headerLeaves : List MerkleLeaf) :
    ∀ (idxs : List Nat) (stream : List MerkleLeaf)
      (out : List ValidatedFile × List MerkleLeaf),
    depBlocksGo hB hP root headers headerLeaves idxs stream = .ok out →
    ∀ s, s < (expIdxList headers headerLeaves idxs).length →
      s < stream.length ∧
      reconstruct_leaf_index ((stream.getD s default).path) =
        (expIdxList headers headerLeaves idxs).getD s 0 := by
  intro idxs
  induction idxs with
  | nil =>
    intro stream out h s hs
    simp [expIdxList] at hs
  | cons p rest ih =>
    intro stream out h s hs
    rw [depBlocksGo] at h
    split at h
    · exact absurd h (by simp)
    · rename_i buf stream2 hcons
      split at h
      · exact absurd h (by simp)
      · rename_i files2 stream3 hgo2
        obtain ⟨hle0, hdrop0, hchk0⟩ := consumeBlocks_ok_inv hB hP root _ _ _ _ _ _ hcons
        have hle : block_count (headers.getD p default).size ≤ stream.length := hle0
        have hdrop : stream2 = stream.drop (block_count (headers.getD p default).size) := hdrop0
        have hchk : ∀ k, k < block_count (headers.getD p default).size →
            reconstruct_leaf_index ((stream.getD k default).path) =
              reconstruct_leaf_index (headerLeaves.getD p default).path + (1 + k) := hchk0
        clear hle0 hdrop0 hchk0
        have hexp : expIdxList headers headerLeaves (p :: rest) =
            (List.range (block_count (headers.getD p default).size)).map
              (fun k => reconstruct_leaf_index (headerLeaves.getD p default).path + (1 + k)) ++
              expIdxList headers headerLeaves rest := by
          simp only [expIdxList, List.map_cons, List.flatten_cons]
        rw [hexp] at hs ⊢
        rw [List.length_append, List.length_map, List.length_range] at hs
        by_cases hcase : s < block_count (headers.getD p default).size
        · refine ⟨by omega, ?_⟩
          have hb1 : s < ((List.range (block_count (headers.getD p default).size)).map
              (fun k => reconstruct_leaf_index (headerLeaves.getD p default).path +
                (1 + k))).length := by
            rw [List.length_map, List.length_range]; exact hcase
          have hb2 : s < (List.range (block_count (headers.getD p default).size)).length := by
            rw [List.length_range]; exact hcase
          rw [List.getD_append _ _ _ _ hb1]
          rw [getD_map_of_lt _ _ s hb2 0 0]
          rw [List.getD_eq_getElem _ _ hb2, List.getElem_range]
          exact hchk s hcase
        · have hs2 : s - block_count (headers.getD p default).size <
              (expIdxList headers headerLeaves rest).length := by omega
          obtain ⟨r1, r2⟩ := ih stream2 (files2, stream3) hgo2 _ hs2
          rw [hdrop] at r1 r2
          rw [List.length_drop] at r1
          refine ⟨by omega, ?_⟩
          have hb3 : ((List.range (block_count (headers.getD p default).size)).map
              (fun k => reconstruct_leaf_index (headerLeaves.getD p default).path +
                (1 + k))).length ≤ s := by
            rw [List.length_map, List.length_range]; omega
          rw [List.getD_append_right _ _ _ _ hb3]
          rw [List.length_map, List.length_range]
          have hb4 : s - block_count (headers.getD p default).size <
              (stream.drop (block_count (headers.getD p default).size)).length := by
            rw [List.length_drop]; omega
          have hb5 : s < stream.length := by omega
          have hgd : (stream.drop (block_count (headers.getD p default).size)).getD
              (s - block_count (headers.getD p default).size) default =
              stream.getD s default := by
            rw [List.getD_eq_getElem _ _ hb4, List.getElem_drop,
              List.getD_eq_getElem _ _ hb5]
            congr 1
            omega
          rw [← r2, hgd]

theorem depRawList_lb (entries : List TarEntry) :
    ∀ base x, x ∈ depRawList base entries → base + 1 ≤ x := by
  induction entries with
  | nil => intro base x hx; simp [depRawList] at hx
  | cons e rest ih =>
    intro base x hx
    rw [depRawList] at hx
    rcases List.mem_append.mp hx with hx | hx
    · split at hx
      · obtain ⟨k, _, rfl⟩ := List.mem_map.mp hx
        omega
      · simp at hx
    · have := ih (base + entryLen e) x hx
      omega

theorem depRawList_sorted (entries : List TarEntry) :
    ∀ base, List.Sorted (· < ·) (depRawList base entries) := by
  induction entries with
  | nil => intro base; simp [depRawList]
  | cons e rest ih =>
    intro base
    rw [depRawList]
    rw [List.Sorted, List.pairwise_append]
    refine ⟨?_, ih (base + entryLen e), ?_⟩
    · split
      · exact (List.pairwise_lt_range _).map (fun k => base + 1 + k)
          (fun a b hab => by show base + 1 + a < base + 1 + b; omega)
      · simp
    · intro a ha b hb
      have hblb := depRawList_lb rest (base + entryLen e) b hb
      split at ha
      · obtain ⟨k, hk, rfl⟩ := List.mem_map.mp ha
        have hk2 : k < (chunk512 e.content).length := List.mem_range.mp hk
        have : entryLen e = 1 + (chunk512 e.content).length := rfl
        omega
      · simp at ha

theorem sorted_getD_ne (l : List Nat) (hsort : List.Sorted (· < ·) l) (p q : Nat)
    (hp : p < l.length) (hq : q < l.length) (hne : p ≠ q) : l.getD p 0 ≠ l.getD q 0 := by
  rw [List.getD_eq_getElem _ _ hp, List.getD_eq_getElem _ _ hq]
  rcases Nat.lt_or_ge p q with hlt | hge
  · exact Nat.ne_of_lt (List.pairwise_iff_getElem.mp hsort p q hp hq hlt)
  · have hlt2 : q < p := by omega
    exact (Nat.ne_of_lt (List.pairwise_iff_getElem.mp hsort q p hq hp hlt2)).symm

theorem depRawList_lt_raw (entries : List TarEntry) :
    ∀ x ∈ depRawList 1 entries,
      x < (countBlock entries.length :: bodyBlocks entries).length := by
  intro x hx
  rw [depRawList_eq entries 0 1] at hx
  obtain ⟨seg, hseg, hxseg⟩ := List.mem_flatten.mp hx
  obtain ⟨t, ht, rfl⟩ := List.mem_map.mp hseg
  obtain ⟨k, hk, rfl⟩ := List.mem_map.mp hxseg
  have hk2 : k < (chunk512 t.2.2.content).length := List.mem_range.mp hk
  obtain ⟨j, hj, hdep, hteq⟩ := depSched_mem entries 0 1 t ht
  have h2 : entries.getD t.1 default = t.2.2 := by rw [hteq]; simp
  have h3 : t.2.1 = 1 + relHdrIdx entries t.1 := by rw [hteq]; simp
  have h1 : t.1 < entries.length := by rw [hteq]; simpa using hj
  rw [h3]
  have := data_idx_lt entries t.1 k h1 (by rw [h2]; exact hk2)
  omega

theorem built_expIdx_eq (hB : List Nat → Nat) (hP : Nat → Nat → Nat)
    (entries : List TarEntry)
    (hs : ∀ e ∈ entries, parse_octal (sizeField e.header) = e.content.length) :
    expIdxList (entries.map (fun e => parse_tar_header e.header))
      ((hdrIdxList 1 entries).map
        (leafAt hP ((countBlock entries.length :: bodyBlocks entries).map hB)
          (countBlock entries.length :: bodyBlocks entries)))
      (depHdrList 0 entries) = depRawList 1 entries := by
  rw [expIdxList, depHdrList_eq entries 0 1, List.map_map, depRawList_eq entries 0 1]
  congr 1
  apply List.map_congr_left
  intro t ht
  obtain ⟨h1, h2, h3, h4⟩ := sched_facts hB hP entries hs t ht
  simp only [Function.comp]
  have hcnt2 : block_count
      ((entries.map (fun e => parse_tar_header e.header)).getD t.1 default).size =
      (chunk512 t.2.2.content).length := by
    rw [getD_map_of_lt _ _ _ h1 default default]
    simp only [h2]
    rw [h4, chunk512_length]
  have ht1 : t.1 < (hdrIdxList 1 entries).length := by
    rw [hdrIdxList_length]; exact h1
  have hrecon : reconstruct_leaf_index
      (((hdrIdxList 1 entries).map
        (leafAt hP ((countBlock entries.length :: bodyBlocks entries).map hB)
          (countBlock entries.length :: bodyBlocks entries))).getD t.1 default).path =
      t.2.1 := by
    rw [getD_map_of_lt _ _ _ ht1 0 default]
    rw [hdrIdxList_getD entries 1 t.1 h1]
    rw [leafAt_recon hB hP _ _ (hdr_idx_lt entries t.1 h1)]
    exact h3.symm
  rw [hcnt2, hrecon]
  apply List.map_congr_left
  intro k hk
  show t.2.1 + (1 + k) = t.2.1 + 1 + k
  omega

theorem c2_raw_list : depRawList 1 [c2DepEntry, c2DepEntry] = [2, 4] := by
  have hdep : isDepHeader c2DepEntry.header = true := by decide
  have hch : (chunk512 c2DepEntry.content).length = 1 := by
    rw [chunk512_length]; decide
  have hel : entryLen c2DepEntry = 2 := by rw [entryLen, hch]
  rw [depRawList, depRawList, depRawList, if_pos hdep, if_pos hdep, hch, hel]
  decide

/-- C2: swapping two distinct dependency-file leaves of an honestly built
archive makes validation fail with `InvalidMerkleArchive`: the dependency
walk checks each consumed leaf's reconstructed logical index against the
owning header's reconstructed index plus the leaf's 1-based offset, the
expected indices are exactly the strictly increasing raw indices of the
dependency data blocks, and the swapped leaf at position `p` reconstructs
to position `q`'s raw index instead.  The two side hypotheses are facts
the tar crate guarantees on any bundle the builder accepts: the octal
size field parses to the content length, and the entry count is a
`usize`. -/
theorem c2_reorder_detected (hB : List Nat → Nat) (hP : Nat → Nat → Nat)
    (pms : PackageManagerSpec) (entries : List TarEntry)
    (hs : ∀ e ∈ entries, parse_octal (sizeField e.header) = e.content.length)
    (hc : entries.length < 2 ^ 64) (p q : Nat) (hne : p ≠ q)
    (hp : p < (build_merkle_archive hB hP pms entries).dependencyFileLeaves.length)
    (hq : q < (build_merkle_archive hB hP pms entries).dependencyFileLeaves.length) :
    validate_merkle_archive hB hP
      { build_merkle_archive hB hP pms entries with
        dependencyFileLeaves :=
          listSwap (build_merkle_archive hB hP pms entries).dependencyFileLeaves p q } =
      .error .InvalidMerkleArchive := by
  have hp1 : p < (depRawList 1 entries).length := by
    rw [build_archive_eq] at hp
    simpa using hp
  have hq1 : q < (depRawList 1 entries).length := by
    rw [build_archive_eq] at hq
    simpa using hq
  rcases hres : validate_merkle_archive hB hP
      { build_merkle_archive hB hP pms entries with
        dependencyFileLeaves :=
          listSwap (build_merkle_archive hB hP pms entries).dependencyFileLeaves p q }
      with e | v
  · rw [validate_err_kind hB hP _ e hres]
  · exfalso
    have hcnt : ensure_count_leaf_is_authentic_and_return_count hB hP
        { build_merkle_archive hB hP pms entries with
          dependencyFileLeaves :=
            listSwap (build_merkle_archive hB hP pms entries).dependencyFileLeaves p q } =
        .ok entries.length := built_count_ok hB hP pms entries hc
    have hh : ensure_header_leaves_are_authentic_and_parse hB hP
        { build_merkle_archive hB hP pms entries with
          dependencyFileLeaves :=
            listSwap (build_merkle_archive hB hP pms entries).dependencyFileLeaves p q }
        entries.length = .ok (entries.map (fun e => parse_tar_header e.header)) :=
      built_headers_ok hB hP pms entries
    simp only [validate_merkle_archive, hcnt, hh] at hres
    split at hres
    · simp at hres
    · split at hres
      · simp at hres
      · rename_i files hdeps2
        rw [build_archive_eq] at hdeps2
        have hgo0 : ensure_dependency_blocks_are_authentic hB hP
            { resolvedWith := pms
              rootHash := merkleRoot (buildLayers hP
                ((countBlock entries.length :: bodyBlocks entries).map hB))
              countLeaf :=
                { data := countBlock entries.length
                  path := pathFor (buildLayers hP
                    ((countBlock entries.length :: bodyBlocks entries).map hB)) 0 }
              headerLeaves := (hdrIdxList 1 entries).map
                (leafAt hP ((countBlock entries.length :: bodyBlocks entries).map hB)
                  (countBlock entries.length :: bodyBlocks entries))
              dependencyFileLeaves := listSwap ((depRawList 1 entries).map
                (leafAt hP ((countBlock entries.length :: bodyBlocks entries).map hB)
                  (countBlock entries.length :: bodyBlocks entries))) p q
              dependencyFileHeaderIndices := depHdrList 0 entries }
            (entries.map (fun e => parse_tar_header e.header)) = .ok files := hdeps2
        rw [ensure_dependency_blocks_are_authentic] at hgo0
        split at hgo0
        · split at hgo0
          · split at hgo0
            · exact absurd hgo0 (by simp)
            · rename_i files2 hgo
              have hgo2 : depBlocksGo hB hP
                  (merkleRoot (buildLayers hP
                    ((countBlock entries.length :: bodyBlocks entries).map hB)))
                  (entries.map (fun e => parse_tar_header e.header))
                  ((hdrIdxList 1 entries).map
                    (leafAt hP ((countBlock entries.length :: bodyBlocks entries).map hB)
                      (countBlock entries.length :: bodyBlocks entries)))
                  (depHdrList 0 entries)
                  (listSwap ((depRawList 1 entries).map
                    (leafAt hP ((countBlock entries.length :: bodyBlocks entries).map hB)
                      (countBlock entries.length :: bodyBlocks entries))) p q) =
                  .ok (files2, []) := hgo
              have hE := built_expIdx_eq hB hP entries hs
              have hpE : p < (expIdxList (entries.map (fun e => parse_tar_header e.header))
                  ((hdrIdxList 1 entries).map
                    (leafAt hP ((countBlock entries.length :: bodyBlocks entries).map hB)
                      (countBlock entries.length :: bodyBlocks entries)))
                  (depHdrList 0 entries)).length := by
                rw [hE]; exact hp1
              obtain ⟨hsl, hrp⟩ := depBlocksGo_ok_inv hB hP _ _ _ _ _ _ hgo2 p hpE
              have hlm : p < ((depRawList 1 entries).map
                  (leafAt hP ((countBlock entries.length :: bodyBlocks entries).map hB)
                    (countBlock entries.length :: bodyBlocks entries))).length := by
                rw [List.length_map]; exact hp1
              have hlmq : q < ((depRawList 1 entries).map
                  (leafAt hP ((countBlock entries.length :: bodyBlocks entries).map hB)
                    (countBlock entries.length :: bodyBlocks entries))).length := by
                rw [List.length_map]; exact hq1
              rw [listSwap_getD_left _ p q hlm hlmq hne] at hrp
              rw [getD_map_of_lt _ _ q hq1 0 default] at hrp
              have hqb : (depRawList 1 entries).getD q 0 <
                  (countBlock entries.length :: bodyBlocks entries).length :=
                depRawList_lt_raw entries _ (getD_mem _ _ _ hq1)
              rw [leafAt_recon hB hP _ _ hqb] at hrp
              rw [hE] at hrp
              exact sorted_getD_ne (depRawList 1 entries) (depRawList_sorted entries 1)
                q p hq1 hp1 (fun h2 => hne h2.symm) hrp
            · exact absurd hgo0 (by simp)
          · exact absurd hgo0 (by simp)
        · exact absurd hgo0 (by simp)

/-- C2 witness: the swap of the two dependency leaves of a concrete
two-entry bundle is rejected. -/
theorem c2_reorder_detected_witness :
    validate_merkle_archive hB0 hP0
      { build_merkle_archive hB0 hP0 ⟨.Cargo, ⟨1, 51, 0⟩⟩ [c2DepEntry, c2DepEntry] with
        dependencyFileLeaves := listSwap
          (build_merkle_archive hB0 hP0
            ⟨.Cargo, ⟨1, 51, 0⟩⟩ [c2DepEntry, c2DepEntry]).dependencyFileLeaves 0 1 } =
      .error .InvalidMerkleArchive :=
  c2_reorder_detected hB0 hP0 ⟨.Cargo, ⟨1, 51, 0⟩⟩ [c2DepEntry, c2DepEntry]
    (by decide) (by norm_num) 0 1 (by decide)
    (by rw [build_archive_eq]; simp [c2_raw_list])
    (by rw [build_archive_eq]; simp [c2_raw_list])

/-! ### C4: the redundant-lockfile loop and implicit workspace roots -/

theorem trim_ct_ct : trimEndMatches (strBytes "Cargo.toml") (strBytes "Cargo.toml") = [] := by
  rw [trimEndMatches, dif_pos (by decide)]
  rw [show (strBytes "Cargo.toml").take
    ((strBytes "Cargo.toml").length - (strBytes "Cargo.toml").length) = [] from by decide]
  rw [trimEndMatches, dif_neg (by decide)]

theorem to_lock_path_ct : to_lock_path (strBytes "Cargo.toml") = strBytes "Cargo.lock" := by
  rw [to_lock_path, trim_ct_ct, List.nil_append]

/-- C4 (code bug): the member-crates-must-not-have-their-own-lockfile
loop checks every manifest without `[workspace]`, including the implicit
workspace root itself.  A single-crate bundle — one implicit-root
`Cargo.toml` (any manifest without a `[workspace]` section) with its
sibling `Cargo.lock` (any v3 lockfile) — is rejected with
`RedundantLockfile`, although per the claim the sibling lockfile of the
sole implicit root is the authoritative workspace lockfile and must not
trigger that error.  (Without the sibling lockfile the same bundle fails
with `MissingLockfile`, so no implicit-root project validates at all.) -/
theorem c4_implicit_root_redundant (parseManifest : List Nat → Option RawManifest)
    (parseReq : List Nat → Option Nat) (reqMatches : Nat → Version → Bool)
    (parseLock : List Nat → Option RawLock)
    (mBytes lBytes : List Nat) (rm : RawManifest) (lf : RawLock) (hdrs : List TarHeader)
    (hm : parseManifest mBytes = some rm) (hw : rm.workspace = none)
    (hum : validUtf8 mBytes = true)
    (hl : parseLock lBytes = some lf) (hv : lf.resolveVersion = 3)
    (hul : validUtf8 lBytes = true) :
    validate_cargo_archive parseManifest parseReq reqMatches parseLock
      { headers := hdrs
        files := [{ header := { name := strBytes "Cargo.toml", size := mBytes.length }
                    bytes := mBytes },
                  { header := { name := strBytes "Cargo.lock", size := lBytes.length }
                    bytes := lBytes }] } = .error .RedundantLockfile := by
  have h1 : (strBytes "Cargo.toml").isSuffixOf (strBytes "Cargo.toml") = true := by decide
  have h2 : (strBytes "Cargo.toml").isSuffixOf (strBytes "Cargo.lock") = false := by decide
  have h3 : (strBytes "Cargo.lock").isSuffixOf (strBytes "Cargo.lock") = true := by decide
  have h4 : (strBytes "Cargo.lock").isSuffixOf (strBytes "Cargo.toml") = false := by decide
  have hpm : parse_manifest_file parseManifest parseReq
      { header := { name := strBytes "Cargo.toml", size := mBytes.length }
        bytes := mBytes } =
      .ok { path := strBytes "Cargo.toml"
            deps := merge_deps parseReq (merge_deps parseReq (merge_deps parseReq []
              (rm.dependencies.getD [])) (rm.build_dependencies.getD []))
              (rm.dev_dependencies.getD [])
            has_workspace := false
            workspace_members := none
            workspace_excludes := none } := by
    rw [parse_manifest_file, if_pos hum]
    simp only [hm]
    rw [hw]
    rfl
  have hpl : parse_lock_file parseLock
      { header := { name := strBytes "Cargo.lock", size := lBytes.length }
        bytes := lBytes } =
      .ok { path := strBytes "Cargo.lock"
            pkgs := (lockMaps lf.packages).1
            deps := (lockMaps lf.packages).2.1
            path_pkgs := (lockMaps lf.packages).2.2 } := by
    rw [parse_lock_file, if_pos hul]
    simp only [hl]
    rw [hv]
    rfl
  rw [validate_cargo_archive]
  simp only [List.filter_cons, List.filter_nil, h1, h2, h3, h4, if_true, if_false,
    Bool.false_eq_true, ite_true, ite_false, mapExcept, hpm, hpl]
  simp only [ensure_single_workspace, rootPaths, List.foldl, Bool.false_eq_true, ite_false,
    List.filter_cons, List.filter_nil, List.find?_nil, hsInsert, List.contains_nil,
    List.nil_append, List.length_cons, List.length_nil, beq_self_eq_true, if_true,
    List.getD_cons_zero]
  simp only [map_by, List.foldl, hmInsert, List.filter_nil, List.nil_append,
    redundant_lock_check, List.find?_cons, to_lock_path_ct, hmGet, Bool.not_false,
    Bool.true_and, beq_self_eq_true, if_true]
  simp only [Option.map_some, Option.map_some', Option.isSome_some]

/-- C4 witness: the concrete single-crate bundle rejected with
`RedundantLockfile`. -/
theorem c4_implicit_root_redundant_witness :
    validate_cargo_archive parseManifestC4 (fun _ => none) (fun _ _ => false) parseLockC4
      { headers := []
        files := [{ header := { name := strBytes "Cargo.toml", size := 1 }
                    bytes := [109] },
                  { header := { name := strBytes "Cargo.lock", size := 1 }
                    bytes := [108] }] } = .error .RedundantLockfile :=
  c4_implicit_root_redundant parseManifestC4 (fun _ => none) (fun _ _ => false) parseLockC4
    [109] [108] ⟨none, none, none, none⟩ ⟨3, [⟨[97], ⟨0, 1, 0⟩, [], false⟩]⟩ []
    (by decide) rfl (by decide) (by decide) rfl (by decide)


/-! ### C6: the reachability DFS computes exactly the reachable set -/

theorem dfsGo_seen_sub (deps : List (List Nat × List (List Nat))) :
    ∀ (seen stack : List (List Nat)), ∀ x ∈ seen, x ∈ dfsGo deps seen stack := by
  intro seen stack
  induction seen, stack using dfsGo.induct deps with
  | case1 seen => intro x hx; rw [dfsGo]; exact hx
  | case2 seen y stack hc ih =>
    intro x hx
    rw [dfsGo, if_pos hc]
    exact ih x hx
  | case3 seen y stack hc ih =>
    intro x hx
    rw [dfsGo, if_neg hc]
    exact ih x (List.mem_cons_of_mem y hx)

theorem dfsGo_stack_sub (deps : List (List Nat × List (List Nat))) :
    ∀ (seen stack : List (List Nat)), ∀ x ∈ stack, x ∈ dfsGo deps seen stack := by
  intro seen stack
  induction seen, stack using dfsGo.induct deps with
  | case1 seen => intro x hx; simp at hx
  | case2 seen y stack hc ih =>
    intro x hx
    rw [dfsGo, if_pos hc]
    rcases List.mem_cons.mp hx with rfl | hx2
    · exact dfsGo_seen_sub deps seen stack x (by simpa using hc)
    · exact ih x hx2
  | case3 seen y stack hc ih =>
    intro x hx
    rw [dfsGo, if_neg hc]
    rcases List.mem_cons.mp hx with rfl | hx2
    · exact dfsGo_seen_sub deps _ _ x (List.mem_cons_self x seen)
    · exact ih x (List.mem_append_right _ hx2)

theorem dfsGo_closed (deps : List (List Nat × List (List Nat))) :
    ∀ (seen stack : List (List Nat)),
    (∀ s ∈ seen, ∀ c ∈ (hmGet deps s).getD [], c ∈ stack ∨ c ∈ seen) →
    ∀ a ∈ dfsGo deps seen stack, ∀ c ∈ (hmGet deps a).getD [],
      c ∈ dfsGo deps seen stack := by
  intro seen stack
  induction seen, stack using dfsGo.induct deps with
  | case1 seen =>
    intro hinv a ha c hc
    rw [dfsGo] at ha ⊢
    rcases hinv a ha c hc with h | h
    · simp at h
    · exact h
  | case2 seen y stack hc ih =>
    intro hinv a ha c hcc
    rw [dfsGo, if_pos hc] at ha ⊢
    refine ih ?_ a ha c hcc
    intro s hs d hd
    rcases hinv s hs d hd with h | h
    · rcases List.mem_cons.mp h with rfl | h2
      · right; simpa using hc
      · left; exact h2
    · right; exact h
  | case3 seen y stack hc ih =>
    intro hinv a ha c hcc
    rw [dfsGo, if_neg hc] at ha ⊢
    refine ih ?_ a ha c hcc
    intro s hs d hd
    rcases List.mem_cons.mp hs with rfl | hs2
    · left; exact List.mem_append_left _ hd
    · rcases hinv s hs2 d hd with h | h
      · rcases List.mem_cons.mp h with rfl | h2
        · right; exact List.mem_cons_self d seen
        · left; exact List.mem_append_right _ h2
      · right; exact List.mem_cons_of_mem y h

theorem dfsGo_sound (deps : List (List Nat × List (List Nat))) :
    ∀ (seen stack : List (List Nat)), ∀ x ∈ dfsGo deps seen stack,
      x ∈ seen ∨ ∃ y ∈ stack, Relation.ReflTransGen (lockStep deps) y x := by
  intro seen stack
  induction seen, stack using dfsGo.induct deps with
  | case1 seen =>
    intro x hx
    rw [dfsGo] at hx
    exact Or.inl hx
  | case2 seen y stack hc ih =>
    intro x hx
    rw [dfsGo, if_pos hc] at hx
    rcases ih x hx with h | h2
    · exact Or.inl h
    · obtain ⟨z, hz, hpath⟩ := h2
      exact Or.inr ⟨z, List.mem_cons_of_mem y hz, hpath⟩
  | case3 seen y stack hc ih =>
    intro x hx
    rw [dfsGo, if_neg hc] at hx
    rcases ih x hx with h | h2
    · rcases List.mem_cons.mp h with rfl | h3
      · exact Or.inr ⟨x, List.mem_cons_self x stack, Relation.ReflTransGen.refl⟩
      · exact Or.inl h3
    · obtain ⟨z, hz, hpath⟩ := h2
      rcases List.mem_append.mp hz with hz2 | hz2
      · exact Or.inr ⟨y, List.mem_cons_self y stack,
          Relation.ReflTransGen.head hz2 hpath⟩
      · exact Or.inr ⟨z, List.mem_cons_of_mem y hz2, hpath⟩

theorem dfs_mem_iff (deps : List (List Nat × List (List Nat)))
    (init : List (List Nat)) (x : List Nat) :
    x ∈ dfsGo deps [] init ↔
      ∃ y ∈ init, Relation.ReflTransGen (lockStep deps) y x := by
  constructor
  · intro hx
    rcases dfsGo_sound deps [] init x hx with h | h
    · simp at h
    · exact h
  · rintro ⟨y, hy, hpath⟩
    induction hpath with
    | refl => exact dfsGo_stack_sub deps [] init y hy
    | tail hab hbc ih =>
      exact dfsGo_closed deps [] init (by simp) _ ih _ hbc

/-- C6: for every parsed lockfile, the reachability check succeeds if
and only if every listed package is reachable by forward traversal of
the declared-children edges starting from the set of path packages (the
workspace members); a package that is not so reachable yields the error
`UndeclaredLockfileDependency`. -/
theorem c6_lock_reachability (lock : LockInfo) :
    (ensure_lock_graph_is_reachable lock = .ok () ↔
      ∀ pr ∈ lock.pkgs, ∃ y ∈ lock.path_pkgs,
        Relation.ReflTransGen (lockStep lock.deps) y pr.1) ∧
    (∀ e, ensure_lock_graph_is_reachable lock = .error e →
      e = .UndeclaredLockfileDependency) := by
  rcases hfind : lock.pkgs.find? (fun pr =>
      !((dfsGo lock.deps [] lock.path_pkgs).contains pr.1)) with _ | pr
  · have hall := List.find?_eq_none.mp hfind
    constructor
    · rw [ensure_lock_graph_is_reachable, hfind]
      constructor
      · intro _ pr hpr
        have h1 := hall pr hpr
        have h2 : (dfsGo lock.deps [] lock.path_pkgs).contains pr.1 = true := by
          simpa using h1
        exact (dfs_mem_iff _ _ _).mp (by simpa using h2)
      · intro _; rfl
    · intro e he
      rw [ensure_lock_graph_is_reachable, hfind] at he
      simp at he
  · constructor
    · rw [ensure_lock_graph_is_reachable, hfind]
      constructor
      · intro h; simp at h
      · intro hall
        exfalso
        have hprm := List.mem_of_find?_eq_some hfind
        have hpred := List.find?_some hfind
        have hmem : pr.1 ∈ dfsGo lock.deps [] lock.path_pkgs :=
          (dfs_mem_iff _ _ _).mpr (hall pr hprm)
        simp [hmem] at hpred
    · intro e he
      rw [ensure_lock_graph_is_reachable, hfind] at he
      injection he with h2
      exact h2.symm

/-- C6 witness: the reachability check accepts a concrete lockfile whose
external package is reachable from the path package. -/
theorem c6_lock_reachability_witness :
    ensure_lock_graph_is_reachable c6Lock = .ok () :=
  (c6_lock_reachability c6Lock).1.mpr (by
    intro pr hpr
    simp only [c6Lock, List.mem_cons, List.not_mem_nil, or_false] at hpr
    rcases hpr with rfl | rfl
    · exact ⟨[114], by simp [c6Lock], Relation.ReflTransGen.refl⟩
    · exact ⟨[114], by simp [c6Lock], Relation.ReflTransGen.single (by rw [lockStep]; decide)⟩)


/-! ### C5: which declared requirements the cross-check really sees -/

theorem c5_dfs_eval : dfsGo [(strBytes "r", [strBytes "foo"]), (strBytes "foo", [])] []
    [strBytes "r"] = [strBytes "foo", strBytes "r"] := by
  rw [dfsGo, if_neg (by decide)]
  rw [show (hmGet [(strBytes "r", [strBytes "foo"]), (strBytes "foo", [])]
    (strBytes "r")).getD [] ++ ([] : List (List Nat)) = [strBytes "foo"] from by decide]
  rw [dfsGo, if_neg (by decide)]
  rw [show (hmGet [(strBytes "r", [strBytes "foo"]), (strBytes "foo", [])]
    (strBytes "foo")).getD [] ++ ([] : List (List Nat)) = [] from by decide]
  rw [dfsGo]

theorem c5_reach_eval : ensure_lock_graph_is_reachable c5LI = .ok () := by
  rw [ensure_lock_graph_is_reachable]
  show (match List.find? (fun pr => !((dfsGo [(strBytes "r", [strBytes "foo"]),
    (strBytes "foo", [])] [] [strBytes "r"]).contains pr.1))
    [(strBytes "r", (⟨0, 1, 0⟩ : Version)), (strBytes "foo", ⟨2, 0, 0⟩)] with
    | some _ => (Except.error ScaError.UndeclaredLockfileDependency : MRes Unit)
    | none => Except.ok ()) = Except.ok ()
  rw [c5_dfs_eval]
  decide

theorem c5_eval : validate_cargo_archive parseManifestC5 parseReqC5 reqMatchesC5 parseLockC5
    c5Archive = .ok [⟨strBytes "foo", ⟨2, 0, 0⟩, strBytes "Cargo.lock"⟩] := by
  have h1 : (strBytes "Cargo.toml").isSuffixOf (strBytes "Cargo.toml") = true := by decide
  have h2 : (strBytes "Cargo.toml").isSuffixOf (strBytes "Cargo.lock") = false := by decide
  have h3 : (strBytes "Cargo.lock").isSuffixOf (strBytes "Cargo.lock") = true := by decide
  have h4 : (strBytes "Cargo.lock").isSuffixOf (strBytes "Cargo.toml") = false := by decide
  have hpm : parse_manifest_file parseManifestC5 parseReqC5
      { header := { name := strBytes "Cargo.toml", size := 1 }, bytes := [77] } =
      .ok c5MI := by decide
  have hpl : parse_lock_file parseLockC5
      { header := { name := strBytes "Cargo.lock", size := 1 }, bytes := [76] } =
      .ok c5LI := by decide
  have hesw : ensure_single_workspace [c5MI] = .ok (strBytes "Cargo.toml") := by decide
  have hred : redundant_lock_check [(c5MI.path, c5MI)]
      [(c5LI.path, c5LI)] = .ok () := by decide
  have hget : hmGet [(c5LI.path, c5LI)] (to_lock_path (strBytes "Cargo.toml")) =
      some c5LI := by
    rw [to_lock_path_ct]
    decide
  have hdecl : declared_checks reqMatchesC5 c5LI [c5MI] = .ok () := by decide
  have hreach : reachable_checks [c5LI] = .ok () := by
    rw [reachable_checks, c5_reach_eval]
    rfl
  rw [validate_cargo_archive]
  simp only [c5Archive, List.filter_cons, List.filter_nil, h1, h2, h3, h4, if_true,
    if_false, Bool.false_eq_true, ite_true, ite_false, mapExcept, hpm, hpl]
  simp only [hesw, map_by, List.foldl, hmInsert, List.filter_nil, List.nil_append,
    List.map_cons, List.map_nil, hred, hget, hdecl, hreach]
  decide

/-- C5 (counterexample): the manifest-lock cross-check does not see every
declared requirement.  `merge_deps` merges the `dependencies`,
`build-dependencies` and `dev-dependencies` tables into one map keyed by
canonical name, overwriting earlier entries, so only the last parseable
requirement per name is checked: a crate declaring
`[dependencies] foo = "^1"` and `[dev-dependencies] foo = "^2"` against a
lockfile pinning foo at 2.0.0 validates successfully although the
`[dependencies]` requirement `^1` (which parses, and does not match
2.0.0) is unsatisfied. -/
theorem c5_overwritten_requirement_counterexample :
    validate_cargo_archive parseManifestC5 parseReqC5 reqMatchesC5 parseLockC5 c5Archive =
      .ok [⟨strBytes "foo", ⟨2, 0, 0⟩, strBytes "Cargo.lock"⟩] ∧
    c5Manifest.dependencies = some [(strBytes "foo", ⟨none, strBytes "^1"⟩)] ∧
    parseReqC5 (strBytes "^1") = some 1 ∧
    hmGet (lockMaps c5Lock.packages).1 (strBytes "foo") = some ⟨2, 0, 0⟩ ∧
    reqMatchesC5 1 ⟨2, 0, 0⟩ = false :=
  ⟨c5_eval, rfl, by decide, by decide, by decide⟩

theorem declared_checks_ok_inv (rM : Nat → Version → Bool) (lock : LockInfo) :
    ∀ ms : List ManifestInfo, declared_checks rM lock ms = .ok () →
      ∀ m ∈ ms, ensure_declared_reqs_are_satisfied rM m lock = .ok () := by
  intro ms
  induction ms with
  | nil => intro _ m hm; simp at hm
  | cons m0 rest ih =>
    intro h m hm
    rw [declared_checks] at h
    rcases hd : ensure_declared_reqs_are_satisfied rM m0 lock with e | u
    · rw [hd] at h; simp at h
    · rw [hd] at h
      rcases List.mem_cons.mp hm with rfl | hm2
      · cases u; exact hd
      · exact ih h m hm2

theorem ensure_declared_ok_iff (rM : Nat → Version → Bool) (m : ManifestInfo)
    (lock : LockInfo) :
    ensure_declared_reqs_are_satisfied rM m lock = .ok () ↔
      ∀ pr ∈ m.deps, ∃ ver, hmGet lock.pkgs pr.1 = some ver ∧ rM pr.2 ver = true := by
  rw [ensure_declared_reqs_are_satisfied]
  rcases hf : m.deps.find? (fun pr =>
      match hmGet lock.pkgs pr.1 with
      | some ver => !(rM pr.2 ver)
      | none => true) with _ | pr
  · have hall := List.find?_eq_none.mp hf
    rw [hf]
    constructor
    · intro _ pr hpr
      have h1 := hall pr hpr
      rcases hg : hmGet lock.pkgs pr.1 with _ | ver
      · rw [hg] at h1; simp at h1
      · rw [hg] at h1
        refine ⟨ver, rfl, ?_⟩
        simpa using h1
    · intro _; rfl
  · rw [hf]
    constructor
    · intro h; simp at h
    · intro hall
      exfalso
      have hprm := List.mem_of_find?_eq_some hf
      have hpred := List.find?_some hf
      obtain ⟨ver, hver, hmatch⟩ := hall pr hprm
      rw [hver] at hpred
      simp [hmatch] at hpred

/-- C5 (amended): the cross-check sees exactly the merged requirement
map, in which later tables overwrite earlier ones per canonical name and
unparseable requirement strings are silently dropped.  Whenever
`validate_cargo_archive` succeeds, every requirement in every parsed
manifest's merged map is satisfied by the workspace root's lockfile. -/
theorem c5_last_merged_requirement_checked (pM : List Nat → Option RawManifest)
    (pR : List Nat → Option Nat) (rM : Nat → Version → Bool)
    (pL : List Nat → Option RawLock) (a : ValidPartialArchive)
    (res : List ResolvedDependency)
    (hok : validate_cargo_archive pM pR rM pL a = .ok res) :
    ∃ manifests wsPath locks wsLock,
      mapExcept (parse_manifest_file pM pR)
        (a.files.filter (fun vf => (strBytes "Cargo.toml").isSuffixOf vf.header.name)) =
        .ok manifests ∧
      ensure_single_workspace manifests = .ok wsPath ∧
      mapExcept (parse_lock_file pL)
        (a.files.filter (fun vf => (strBytes "Cargo.lock").isSuffixOf vf.header.name)) =
        .ok locks ∧
      hmGet (map_by locks (fun l => l.path)) (to_lock_path wsPath) = some wsLock ∧
      ∀ m ∈ (map_by manifests (fun x => x.path)).map (fun p => p.2),
        ∀ pr ∈ m.deps, ∃ ver, hmGet wsLock.pkgs pr.1 = some ver ∧
          rM pr.2 ver = true := by
  rw [validate_cargo_archive] at hok
  split at hok
  · exact absurd hok (by simp)
  · rename_i manifests hman
    split at hok
    · exact absurd hok (by simp)
    · rename_i wsPath hws
      split at hok
      · exact absurd hok (by simp)
      · rename_i locks hlocks
        split at hok
        · exact absurd hok (by simp)
        · rename_i u1 hred
          split at hok
          · exact absurd hok (by simp)
          · rename_i wsLock hget
            split at hok
            · exact absurd hok (by simp)
            · rename_i u2 hdecl
              split at hok
              · exact absurd hok (by simp)
              · rename_i u3 hreach
                have hdecl2 : declared_checks rM wsLock
                    ((map_by manifests (fun x => x.path)).map (fun p => p.2)) =
                    .ok () := hdecl
                refine ⟨manifests, wsPath, locks, wsLock, hman, hws, hlocks, hget, ?_⟩
                intro m hm pr hpr
                exact (ensure_declared_ok_iff rM m wsLock).mp
                  (declared_checks_ok_inv rM wsLock _ hdecl2 m hm) pr hpr

/-- C5 witness: the amended statement instantiated on the concrete
crate, whose merged map pins foo to the dev-dependencies requirement. -/
theorem c5_last_merged_requirement_checked_witness :
    ∃ manifests wsPath locks wsLock,
      mapExcept (parse_manifest_file parseManifestC5 parseReqC5)
        (c5Archive.files.filter (fun vf =>
          (strBytes "Cargo.toml").isSuffixOf vf.header.name)) = .ok manifests ∧
      ensure_single_workspace manifests = .ok wsPath ∧
      mapExcept (parse_lock_file parseLockC5)
        (c5Archive.files.filter (fun vf =>
          (strBytes "Cargo.lock").isSuffixOf vf.header.name)) = .ok locks ∧
      hmGet (map_by locks (fun l => l.path)) (to_lock_path wsPath) = some wsLock ∧
      ∀ m ∈ (map_by manifests (fun x => x.path)).map (fun p => p.2),
        ∀ pr ∈ m.deps, ∃ ver, hmGet wsLock.pkgs pr.1 = some ver ∧
          reqMatchesC5 pr.2 ver = true :=
  c5_last_merged_requirement_checked parseManifestC5 parseReqC5 reqMatchesC5 parseLockC5
    c5Archive [⟨strBytes "foo", ⟨2, 0, 0⟩, strBytes "Cargo.lock"⟩] c5_eval


/-! ### C7: the dependency audit -/

theorem enforce_ok_iff (dep : ResolvedDependency) (abp : List (List Nat × Dependency))
    (policy : Option (List (List Nat))) :
    enforce_policies dep abp policy = .ok () ↔
      ∃ safe, hmGet abp dep.name = some safe ∧
        (∀ pol, policy = some pol →
          safe.license.evaluate (fun r => pol.contains r) = true) ∧
        versionLt dep.version safe.min_safe_version = false := by
  rcases hg : hmGet abp dep.name with _ | safe
  · simp only [enforce_policies, hg]
    constructor
    · intro h
      exact absurd h (by simp)
    · rintro ⟨safe, hsafe, _⟩
      exact absurd hsafe (by simp)
  · simp only [enforce_policies, hg]
    rcases policy with _ | pol
    · by_cases hv : versionLt dep.version safe.min_safe_version
      · simp [hv]
      · simp [hv]
    · by_cases hl : safe.license.evaluate (fun r => pol.contains r)
      · simp at hl
        by_cases hv : versionLt dep.version safe.min_safe_version
        · simp [hl, hv]
        · simp [hl, hv]
      · simp at hl
        simp [hl]

theorem enforce_fail_kind (dep : ResolvedDependency) (allowlist : List Dependency)
    (policy : Option (List (List Nat)))
    (h : ¬ depCompliantSpec allowlist policy dep) :
    enforce_policies dep (allowByPkg allowlist) policy =
      .error (firstFailKindSpec allowlist policy dep) := by
  rcases hg : hmGet (allowByPkg allowlist) dep.name with _ | safe
  · simp only [enforce_policies, firstFailKindSpec, hg]
  · simp only [enforce_policies, firstFailKindSpec, hg]
    rcases hpol : policy with _ | pol
    · by_cases hv : versionLt dep.version safe.min_safe_version
      · simp [hv]
      · exfalso
        refine h ⟨safe, hg, ?_, by simpa using hv⟩
        intro pol2 h2
        exact absurd h2 (by simp [hpol])
    · by_cases hl : safe.license.evaluate (fun r => pol.contains r)
      · have hl2 := hl
        simp at hl2
        by_cases hv : versionLt dep.version safe.min_safe_version
        · simp [hl2, hv]
        · exfalso
          refine h ⟨safe, hg, ?_, by simpa using hv⟩
          intro pol2 h2
          rw [hpol] at h2
          injection h2 with h3
          subst h3
          exact hl
      · simp at hl
        simp [hl]

theorem auditGo_ok_iff (abp : List (List Nat × Dependency))
    (pol : Option (List (List Nat))) :
    ∀ resolved, audit_dependencies.auditGo resolved abp pol = .ok () ↔
      ∀ dep ∈ resolved, enforce_policies dep abp pol = .ok () := by
  intro resolved
  induction resolved with
  | nil => simp [audit_dependencies.auditGo]
  | cons d rest ih =>
    rw [audit_dependencies.auditGo]
    rcases he : enforce_policies d abp pol with e | u
    · constructor
      · intro h
        exact absurd h (by simp)
      · intro hall
        exact absurd (hall d (List.mem_cons_self d rest)) (by simp [he])
    · cases u
      constructor
      · intro h
        have h2 : audit_dependencies.auditGo rest abp pol = .ok () := h
        intro dep hdep
        rcases List.mem_cons.mp hdep with rfl | h3
        · exact he
        · exact (ih.mp h2) dep h3
      · intro hall
        have h2 : audit_dependencies.auditGo rest abp pol = .ok () :=
          ih.mpr (fun dep hd => hall dep (List.mem_cons_of_mem d hd))
        exact h2

theorem auditGo_append (abp : List (List Nat × Dependency))
    (pol : Option (List (List Nat))) :
    ∀ pre rest, (∀ d ∈ pre, enforce_policies d abp pol = .ok ()) →
      audit_dependencies.auditGo (pre ++ rest) abp pol =
        audit_dependencies.auditGo rest abp pol := by
  intro pre
  induction pre with
  | nil => intro rest _; rfl
  | cons d t ih =>
    intro rest hall
    rw [List.cons_append, audit_dependencies.auditGo, hall d (List.mem_cons_self d t)]
    exact ih rest (fun x hx => hall x (List.mem_cons_of_mem d hx))

/-- C7: the audit accepts exactly when every resolved dependency is
allowlisted, license-compliant under the optional policy, and at or
above its minimum safe version; for the first non-compliant dependency
the checks run in that order and the error is `DisallowedDependency`,
`DisallowedLicense` or `DisallowedVersion` for the first failing
check. -/
theorem c7_policy_audit (resolved : List ResolvedDependency)
    (allowlist : List Dependency) (policy : Option (List (List Nat))) :
    (audit_dependencies resolved allowlist policy = .ok () ↔
      ∀ dep ∈ resolved, depCompliantSpec allowlist policy dep) ∧
    (∀ pre dep post, resolved = pre ++ dep :: post →
      (∀ d ∈ pre, depCompliantSpec allowlist policy d) →
      ¬ depCompliantSpec allowlist policy dep →
      audit_dependencies resolved allowlist policy =
        .error (firstFailKindSpec allowlist policy dep)) := by
  constructor
  · rw [audit_dependencies, auditGo_ok_iff]
    constructor
    · intro h dep hdep
      exact (enforce_ok_iff dep _ policy).mp (h dep hdep)
    · intro h dep hdep
      exact (enforce_ok_iff dep _ policy).mpr (h dep hdep)
  · intro pre dep post hres hpre hfail
    subst hres
    rw [audit_dependencies]
    rw [auditGo_append _ _ pre (dep :: post)
      (fun d hd => (enforce_ok_iff d _ policy).mpr (hpre d hd))]
    rw [audit_dependencies.auditGo, enforce_fail_kind dep allowlist policy hfail]

/-- C7 witness: the audit accepts a concrete compliant dependency under
a concrete MIT-only policy. -/
theorem c7_policy_audit_witness :
    audit_dependencies [c7Res] [c7Allow] (some [strBytes "MIT"]) = .ok () :=
  (c7_policy_audit [c7Res] [c7Allow] (some [strBytes "MIT"])).1.mpr (by
    intro dep hdep
    rw [List.mem_singleton] at hdep
    subst hdep
    refine ⟨c7Allow, by decide, ?_, by decide⟩
    intro pol hp
    injection hp with h2
    subst h2
    decide)

/-! ### C8: the empty license policy -/

/-- C8 (counterexample): deserializing the empty JSON array as a license
policy is an error — `try_new` rejects the empty requirement list — not
the absence of a policy. -/
theorem c8_empty_array_rejected :
    deserializeLicensePolicy parseExprC8 [] = .error () := rfl

/-- C8 (amended): an empty `--allowed-licenses` list produces no policy
only through the CLI's `is_empty` short-circuit, which never touches the
deserializer; deserializing an empty array directly — as the claim's
"equivalently" clause asserts succeeds — is rejected by
`LicensePolicy::deserialize` for every SPDX parser. -/
theorem c8_empty_policy_two_paths (parseExpr : List Nat → Option (List (List Nat))) :
    cliLicensePolicy parseExpr [] = .ok none ∧
    deserializeLicensePolicy parseExpr [] = .error () :=
  ⟨rfl, rfl⟩


/-! ### C9: determinism of the guest pipeline -/

theorem ensure_reach_ok_iff (lock : LockInfo) :
    ensure_lock_graph_is_reachable lock = .ok () ↔
      ∀ pr ∈ lock.pkgs, ∃ y ∈ lock.path_pkgs,
        Relation.ReflTransGen (lockStep lock.deps) y pr.1 := by
  rcases hfind : lock.pkgs.find? (fun pr =>
      !((dfsGo lock.deps [] lock.path_pkgs).contains pr.1)) with _ | pr
  · have hall := List.find?_eq_none.mp hfind
    rw [ensure_lock_graph_is_reachable, hfind]
    constructor
    · intro _ pr hpr
      have h1 := hall pr hpr
      have h2 : (dfsGo lock.deps [] lock.path_pkgs).contains pr.1 = true := by
        simpa using h1
      exact (dfs_mem_iff _ _ _).mp (by simpa using h2)
    · intro _; rfl
  · rw [ensure_lock_graph_is_reachable, hfind]
    constructor
    · intro h; simp at h
    · intro hall
      exfalso
      have hprm := List.mem_of_find?_eq_some hfind
      have hpred := List.find?_some hfind
      have hmem : pr.1 ∈ dfsGo lock.deps [] lock.path_pkgs :=
        (dfs_mem_iff _ _ _).mpr (hall pr hprm)
      simp [hmem] at hpred

/-- C9: the guest computation is a pure function of its input.  The
committed journal is determined by the input alone (the archive's root
hash, the permitted dependencies, and the license policy, exactly as
read); and the accept verdicts of every loop that iterates a hash
collection — the audit over the resolved list, the per-manifest
requirement check over the merged map, and the reachability check over a
lockfile's package and path-package sets — are invariant under
permutation of the iteration order. -/
theorem c9_determinism (hB : List Nat → Nat) (hP : Nat → Nat → Nat)
    (pM : List Nat → Option RawManifest) (pR : List Nat → Option Nat)
    (rM : Nat → Version → Bool) (pL : List Nat → Option RawLock)
    (input : GuestInput) :
    (∀ out, real_main hB hP pM pR rM pL input = .ok out →
      out = { root_hash := input.src_archive.rootHash
              permitted_deps := input.permitted_deps
              license_policy := input.license_policy }) ∧
    (∀ (resolved resolved2 : List ResolvedDependency) allowlist policy,
      resolved.Perm resolved2 →
      (audit_dependencies resolved allowlist policy = .ok () ↔
        audit_dependencies resolved2 allowlist policy = .ok ())) ∧
    (∀ (rM2 : Nat → Version → Bool) (lock : LockInfo) (m : ManifestInfo)
        (deps2 : List (List Nat × Nat)), m.deps.Perm deps2 →
      (ensure_declared_reqs_are_satisfied rM2 m lock = .ok () ↔
        ensure_declared_reqs_are_satisfied rM2 { m with deps := deps2 } lock = .ok ())) ∧
    (∀ (lock : LockInfo) (pkgs2 : List (List Nat × Version))
        (init2 : List (List Nat)), lock.pkgs.Perm pkgs2 → lock.path_pkgs.Perm init2 →
      (ensure_lock_graph_is_reachable lock = .ok () ↔
        ensure_lock_graph_is_reachable
          { lock with pkgs := pkgs2, path_pkgs := init2 } = .ok ())) := by
  refine ⟨?_, ?_, ?_, ?_⟩
  · intro out hout
    rw [real_main] at hout
    split at hout
    · split at hout
      · exact absurd hout (by simp)
      · split at hout
        · exact absurd hout (by simp)
        · split at hout
          · exact absurd hout (by simp)
          · split at hout
            · exact absurd hout (by simp)
            · injection hout with h2
              exact h2.symm
    · exact absurd hout (by simp)
  · intro resolved resolved2 allowlist policy hperm
    rw [audit_dependencies, audit_dependencies, auditGo_ok_iff, auditGo_ok_iff]
    constructor
    · intro h dep hdep
      exact h dep (hperm.mem_iff.mpr hdep)
    · intro h dep hdep
      exact h dep (hperm.mem_iff.mp hdep)
  · intro rM2 lock m deps2 hperm
    rw [ensure_declared_ok_iff, ensure_declared_ok_iff]
    constructor
    · intro h pr hpr
      exact h pr (hperm.mem_iff.mpr hpr)
    · intro h pr hpr
      exact h pr (hperm.mem_iff.mp hpr)
  · intro lock pkgs2 init2 hpkgs hinit
    rw [ensure_reach_ok_iff, ensure_reach_ok_iff]
    constructor
    · intro h pr hpr
      obtain ⟨y, hy, hpath⟩ := h pr (hpkgs.mem_iff.mpr hpr)
      exact ⟨y, hinit.mem_iff.mp hy, hpath⟩
    · intro h pr hpr
      obtain ⟨y, hy, hpath⟩ := h pr (hpkgs.mem_iff.mp hpr)
      exact ⟨y, hinit.mem_iff.mpr hy, hpath⟩

/-- C9 witness: the audit verdict on a two-element resolved list equals
the verdict on its transposition. -/
theorem c9_determinism_witness :
    audit_dependencies [c7Res, c9Res] [c7Allow, c9Allow] none = .ok () ↔
      audit_dependencies [c9Res, c7Res] [c7Allow, c9Allow] none = .ok () :=
  (c9_determinism hB0 hP0 (fun _ => none) (fun _ => none) (fun _ _ => false)
    (fun _ => none) default).2.1 [c7Res, c9Res] [c9Res, c7Res] [c7Allow, c9Allow] none
    (List.Perm.swap c9Res c7Res [])


/-! ### C3: `parse_octal` on invalid digits -/

theorem parse_octal_fold_eq (l : List Nat) :
    ∀ acc : Nat, (∀ b ∈ l, b = 0 ∨ b = 32 ∨ (48 ≤ b ∧ b ≤ 55)) →
    l.foldl (fun result b =>
        if b == 0 || b == 32 then result else result * 8 + (b + 208) % 256) acc =
      (l.filter (fun b => !(b == 0 || b == 32))).foldl
        (fun a b => a * 8 + (b - 48)) acc := by
  induction l with
  | nil => intro acc _; rfl
  | cons b t ih =>
    intro acc h
    rcases h b (List.mem_cons_self b t) with rfl | rfl | hb
    · simp only [List.foldl_cons, List.filter_cons, beq_self_eq_true, Bool.true_or,
        Bool.not_true, if_true, Bool.false_eq_true, if_false]
      exact ih acc (fun x hx => h x (List.mem_cons_of_mem _ hx))
    · have hc : ((32 : Nat) == 0 || (32 : Nat) == 32) = true := by decide
      simp only [List.foldl_cons, List.filter_cons, hc, Bool.not_true, if_true,
        Bool.false_eq_true, if_false]
      exact ih acc (fun x hx => h x (List.mem_cons_of_mem _ hx))
    · have hc : (b == 0 || b == 32) = false := by
        simp only [Bool.or_eq_false_iff, beq_eq_false_iff_ne]
        omega
      have hm : (b + 208) % 256 = b - 48 := by omega
      simp only [List.foldl_cons, List.filter_cons, hc, Bool.not_false, if_true,
        Bool.false_eq_true, if_false, hm]
      exact ih _ (fun x hx => h x (List.mem_cons_of_mem _ hx))

/-- C3 (counterexample): a block whose size field holds the byte `'9'`
(57), which is not an octal digit, NUL or space, parses to size 9 — not
to 0 as the claim states.  `parse_octal` has no invalid-digit branch: it
folds `result * 8 + (b - b'0')` over every non-NUL, non-space byte. -/
theorem c3_invalid_digit_not_zero :
    (parse_tar_header blockC3).size = 9 ∧ 57 ∈ sizeField blockC3 ∧
      (57 < 48 ∨ 55 < 57) :=
  ⟨by decide, by decide, by decide⟩

/-- C3 (amended): size parsing is total (never panics) and never rejects
a byte: NUL and space are skipped and every other byte `b` contributes
`(b - b'0') mod 256` as a base-8 digit, so a non-octal byte yields a
garbage size rather than 0.  When the field holds only octal digits,
NULs and spaces, the size is the octal value of its digits. -/
theorem c3_size_is_octal_fold (block : List Nat)
    (h : ∀ b ∈ sizeField block, b = 0 ∨ b = 32 ∨ (48 ≤ b ∧ b ≤ 55)) :
    (parse_tar_header block).size = octalValue (sizeField block) := by
  show parse_octal (sizeField block) = octalValue (sizeField block)
  rw [parse_octal, octalValue]
  exact parse_octal_fold_eq (sizeField block) 0 h

/-- C3 witness: a block whose size field is the octal digit `'7'`. -/
theorem c3_size_is_octal_fold_witness :
    (parse_tar_header (List.replicate 124 0 ++ 55 :: List.replicate 387 0)).size =
      octalValue (sizeField (List.replicate 124 0 ++ 55 :: List.replicate 387 0)) ∧
    octalValue (sizeField (List.replicate 124 0 ++ 55 :: List.replicate 387 0)) = 7 :=
  ⟨c3_size_is_octal_fold (List.replicate 124 0 ++ 55 :: List.replicate 387 0) (by decide),
    by decide⟩

end ZkSca
